import Mathlib

/-!
Shallow embedding of the `unrolled-linked-list` crate (src/src/lib.rs together
with the iterator in src/src/iters.rs).

The container `UnrolledLinkedList<T>` (lib.rs:45-50) holds `len`, `cap` and raw
pointers `head`/`tail` into a doubly linked chain of `Node<T>`s, each node
owning a `Vec<T>` of elements (`data`).  The chain is always a simple path:
`link_next` (lib.rs:381) inserts a node directly after another and
`unlink_next` (lib.rs:361) removes a node's direct successor, so the chain is
represented here by the list of the nodes' `data` vectors in chain order.
`head`, when set, always refers to chain position 0 (no operation repoints it
at an interior node; it is only replaced when the chain is empty).  The `tail`
raw pointer is modelled positionally: a pointer is unaffected when *other*
nodes are inserted into or removed from the chain, so its chain *position*
shifts accordingly; when the pointed-to node itself is freed
(`Box::from_raw` inside `unlink_next`) the pointer dangles, which is modelled
by a distinct `dangling` value that compares unequal to every live pointer
(freed addresses are never reused) and whose dereference is undefined
behavior, modelled as the error `Err.ub`.

Rust panics (the explicit ones in `insert`/`remove`, the `Vec` bound panics,
the `unreachable!`, and `usize` underflow of `len -= 1` under debug-profile
semantics) are modelled as `Except.error` values; machine-integer overflow of
`len += 1` is immaterial at the sizes involved, so `len` is a `Nat`.
-/

namespace ULLModel

/-- Where the container's `tail` raw pointer points inside the node chain.
`pos j` is a live pointer to the node at chain position `j` (0-based from
`head`); `dangling` is a pointer to a node that has been freed. -/
inductive TailPtr where
  | none
  | pos (j : Nat)
  | dangling
deriving DecidableEq, Repr

/-- `UnrolledLinkedList<T>` (lib.rs:45-50).  `nodes` lists each chain node's
`data` vector in chain order; `head` is `Some` exactly when `nodes ≠ []`. -/
structure ULL (α : Type) where
  cap : Nat
  len : Nat
  nodes : List (List α)
  tail : TailPtr
deriving DecidableEq, Repr

/-- The failure modes of the modelled operations. -/
inductive Err where
  /-- the explicit index-validation panic in `insert` (lib.rs:152) and
  `remove` (lib.rs:223) -/
  | idxPanic
  /-- a `Vec` bounds panic (`Vec::insert`, `Vec::remove`, `Vec::split_off`) -/
  | vecPanic
  /-- the `unreachable!` in `remove` (lib.rs:233) -/
  | unreachablePanic
  /-- `usize` underflow in `self.len -= 1` (debug-profile semantics) -/
  | arithPanic
  /-- dereference of a freed (dangling) node pointer: undefined behavior -/
  | ub
deriving DecidableEq, Repr

/-- `Vec::insert(i, a)`: shifts the suffix right; panics when `i > len`. -/
def vecInsert (l : List α) (i : Nat) (a : α) : Option (List α) :=
  if i ≤ l.length then some (l.take i ++ a :: l.drop i) else Option.none

/-- `Vec::remove(i)`: returns the removed element and shifts the suffix left;
panics when `i >= len`. -/
def vecRemove (l : List α) (i : Nat) : Option (α × List α) :=
  match l.get? i with
  | some a => some (a, l.take i ++ l.drop (i + 1))
  | Option.none => Option.none

/-- `Vec::split_off(i)`: the vector keeps `[0, i)` and the call returns
`[i, len)`; panics when `i > len`.  The pair is (kept, returned). -/
def vecSplitOff (l : List α) (i : Nat) : Option (List α × List α) :=
  if i ≤ l.length then some (l.take i, l.drop i) else Option.none

/-- Insert a new chain node at position `r` (the structural effect of
`link_next`, lib.rs:381, when the predecessor is the node at `r - 1`). -/
def insertChunkAt (nodes : List (List α)) (r : Nat) (c : List α) :
    List (List α) :=
  nodes.take r ++ c :: nodes.drop r

/-- Remove the chain node at position `r` (the structural effect of
`unlink_next`, lib.rs:361, invoked on the node at `r - 1`). -/
def removeChunkAt (nodes : List (List α)) (r : Nat) : List (List α) :=
  nodes.take r ++ nodes.drop (r + 1)

/-- Position of a live `tail` pointer after a new node is inserted at chain
position `r`: the pointer itself is unaffected, so its position shifts up
exactly when the insertion happens at or before it. -/
def TailPtr.afterInsertAt (t : TailPtr) (r : Nat) : TailPtr :=
  match t with
  | .pos k => if r ≤ k then .pos (k + 1) else .pos k
  | t => t

/-- Position of a `tail` pointer after the node at chain position `r` is
unlinked and freed: pointing at the freed node leaves the pointer dangling;
pointing after it shifts the position down by one. -/
def TailPtr.afterRemoveAt (t : TailPtr) (r : Nat) : TailPtr :=
  match t with
  | .pos k => if k = r then .dangling else if r < k then .pos (k - 1) else .pos k
  | t => t

/-- `UnrolledLinkedList::with_capacity` (lib.rs:92). -/
def ULL.withCapacity (cap : Nat) : ULL α :=
  { cap := cap, len := 0, nodes := [], tail := .none }

/-- `UnrolledLinkedList::new` (lib.rs:81): node size 8. -/
def ULL.new : ULL α := ULL.withCapacity 8

/-- The logical element sequence: each node's chunk contributes a contiguous
slice, in chain order. -/
def ULL.elems (s : ULL α) : List α := s.nodes.flatten

/-- The sum of the lengths of a list of chunks. -/
def sumL (l : List (List α)) : Nat := (l.map List.length).sum

/-- The sum of all chunk lengths of the container. -/
def sumChunks (s : ULL α) : Nat := sumL s.nodes

/-- The scan loop of `find_node` (lib.rs:325-343): walk the chain from `head`
accumulating the running offset `shift`; for each node compute
`shift_end = shift + node.data.len()` and return the node (its chain position
`j` here, standing for the pointer) and `shift` as soon as
`idx >= shift && idx <= shift_end` — note the INCLUSIVE upper bound in the
source (lib.rs:334). -/
def findNodeAux (chunks : List (List α)) (idx shift j : Nat) :
    Option (Nat × Nat) :=
  match chunks with
  | [] => Option.none
  | c :: rest =>
    let shiftEnd := shift + c.length
    if shift ≤ idx ∧ idx ≤ shiftEnd then some (j, shift)
    else findNodeAux rest idx shiftEnd (j + 1)

/-- `UnrolledLinkedList::find_node` (lib.rs:325): `none` models the source's
`(None, 0)` result. -/
def ULL.findNode (s : ULL α) (idx : Nat) : Option (Nat × Nat) :=
  findNodeAux s.nodes idx 0 0

/-- Modelled from the spec (§4.4.2 `find_node` rule and the Design Notes):
the *half-open* matching rule `[shift, shift + len)` that the spec declares
canonical — `idx < shift_end` where the source (lib.rs:334) has
`idx <= shift_end`.  Used only to compare the source behavior against the
spec's stated rule. -/
def specFindNodeHalfOpen (chunks : List (List α)) (idx shift j : Nat) :
    Option (Nat × Nat) :=
  match chunks with
  | [] => Option.none
  | c :: rest =>
    let shiftEnd := shift + c.length
    if shift ≤ idx ∧ idx < shiftEnd then some (j, shift)
    else specFindNodeHalfOpen rest idx shiftEnd (j + 1)

/-- `UnrolledLinkedList::get` (lib.rs:250): resolve via `find_node`, then
`data.get(index - start_idx)`. -/
def ULL.get (s : ULL α) (idx : Nat) : Option α :=
  match s.findNode idx with
  | some (j, start) => (s.nodes.getD j []).get? (idx - start)
  | Option.none => Option.none

/-- Data effect of `Node::split` (lib.rs:371-375): `data.split_off(len / 2)`
keeps `data[0, len/2)` in the node and moves `data[len/2, len)` — the tail
half — into the freshly linked `new_node`.  The pair is
(kept by the original node, moved into the new node). -/
def splitChunk (l : List α) : List α × List α :=
  (l.take (l.length / 2), l.drop (l.length / 2))

/-- The `(_, Some(node)) | (Some(node), None)` arm of `push` (lib.rs:120-127)
acting on the node at chain position `j`: if the node `is_full` (lib.rs:377,
`data.len() >= cap`), `split_and_push` (lib.rs:411) — `split` keeps
`data[0, len/2)` in the node, moves `data[len/2, len)` into a new node linked
directly after it (lib.rs:371-375, `split_off(len / 2)`), then pushes the
element onto the new node, which becomes `tail`; otherwise `data.push(el)`. -/
def ULL.pushAt (s : ULL α) (j : Nat) (el : α) : ULL α :=
  let node := s.nodes.getD j []
  if s.cap ≤ node.length then
    let left := (splitChunk node).1
    let right := (splitChunk node).2
    { s with
      nodes := insertChunkAt (s.nodes.set j left) (j + 1) (right ++ [el]),
      tail := .pos (j + 1) }
  else
    { s with nodes := s.nodes.set j (node ++ [el]) }

/-- `UnrolledLinkedList::push` (lib.rs:118-135).  The source matches on
`(head, tail)`: with `tail = Some` it pushes at the tail node (dereferencing
the pointer — undefined behavior when it dangles); with only `head = Some` it
pushes at the head node; with both `None` it creates the first node.
`len += 1` in every case. -/
def ULL.push (s : ULL α) (el : α) : Except Err (ULL α) :=
  match s.tail with
  | .pos j =>
      if j < s.nodes.length then
        .ok { s.pushAt j el with len := s.len + 1 }
      else
        -- a live pointer always has a chain position; defensive only
        .error .ub
  | .dangling => .error .ub
  | .none =>
      match s.nodes with
      | [] => .ok { s with nodes := [[el]], len := s.len + 1 }
      | _ :: _ => .ok { s.pushAt 0 el with len := s.len + 1 }

/-- `UnrolledLinkedList::insert` (lib.rs:150-172).  Panics when
`index > len`; otherwise resolves the owning node via `find_node`.  On a full
node, `split_and_insert` (lib.rs:418-428): split as in `push`, then insert
into the right half at `idx - data_len` when `idx > data_len` (the retained
left half's new length), else into the left half at `idx`; the new right node
becomes `tail` only if `tail` was `None` (lib.rs:161).  On a non-full node,
`data.insert(local_idx, el)`.  When `find_node` returns no node (from a
reachable state: only the empty chain) a first node is created and becomes
`head`. -/
def ULL.insert (s : ULL α) (index : Nat) (el : α) : Except Err (ULL α) :=
  if s.len < index then .error .idxPanic else
  match s.findNode index with
  | some (j, start) =>
    let localIdx := index - start
    let node := s.nodes.getD j []
    if s.cap ≤ node.length then
      let left := (splitChunk node).1
      let right := (splitChunk node).2
      let dataLen := left.length
      if dataLen < localIdx then
        match vecInsert right (localIdx - dataLen) el with
        | some right' =>
          .ok { s with
            nodes := insertChunkAt (s.nodes.set j left) (j + 1) right',
            tail := if s.tail = .none then .pos (j + 1)
                    else s.tail.afterInsertAt (j + 1),
            len := s.len + 1 }
        | Option.none => .error .vecPanic
      else
        match vecInsert left localIdx el with
        | some left' =>
          .ok { s with
            nodes := insertChunkAt (s.nodes.set j left') (j + 1) right,
            tail := if s.tail = .none then .pos (j + 1)
                    else s.tail.afterInsertAt (j + 1),
            len := s.len + 1 }
        | Option.none => .error .vecPanic
    else
      match vecInsert node localIdx el with
      | some node' =>
        .ok { s with nodes := s.nodes.set j node', len := s.len + 1 }
      | Option.none => .error .vecPanic
  | Option.none =>
    -- `first_node.data.insert(index, el); self.head = Some(first_node)`.
    -- From reachable states this arm runs only on the empty chain (for a
    -- nonempty chain `find_node` always matches some node when
    -- `index <= len = sum of chunk lengths`); the source would leak a
    -- nonempty chain here while repointing `head`.
    match vecInsert [] index el with
    | some c => .ok { s with nodes := [c], len := s.len + 1 }
    | Option.none => .error .vecPanic

/-- `UnrolledLinkedList::unlink_last` (lib.rs:312-324), reached from `pop`
with `tail` a live pointer.  If `head`'s successor *is* the tail pointer
(pointer comparison: position 1 against the tail's position), unlink it and
clear `tail`; otherwise follow the tail node's `prev` and unlink that node's
successor (the tail node), making `prev` the new `tail`.  A tail at position
0 (aliasing `head`) has no `prev`, so nothing happens. -/
def ULL.unlinkLast (s : ULL α) : ULL α :=
  match s.nodes with
  | [] => s
  | _first :: rest =>
    match s.tail with
    | .pos j =>
      if rest.isEmpty = false ∧ j = 1 then
        { s with nodes := removeChunkAt s.nodes 1, tail := .none }
      else if 1 ≤ j then
        { s with nodes := removeChunkAt s.nodes j, tail := .pos (j - 1) }
      else s
    | _ => s

/-- `UnrolledLinkedList::pop` (lib.rs:185-207).  Arm `(Some(f), None)`: pop
from the head node unless its `data` is empty (in which case `None`, length
unchanged).  Arm `(_, Some(l))`: dereference the tail pointer (undefined
behavior when dangling), `data.pop()`, unlink the node if that emptied it,
and decrement `len` unconditionally — even when `data.pop()` gave `None`. -/
def ULL.pop (s : ULL α) : Except Err (Option α × ULL α) :=
  match s.nodes, s.tail with
  | f :: _, .none =>
    if f.isEmpty then .ok (Option.none, s)
    else
      match s.len with
      | 0 => .error .arithPanic
      | n + 1 =>
        .ok (f.getLast?, { s with nodes := s.nodes.set 0 f.dropLast, len := n })
  | _, .pos j =>
    if j < s.nodes.length then
      let lastNode := s.nodes.getD j []
      let popped := lastNode.getLast?
      let s' := { s with nodes := s.nodes.set j lastNode.dropLast }
      let s'' := if lastNode.dropLast.isEmpty then s'.unlinkLast else s'
      match s.len with
      | 0 => .error .arithPanic
      | n + 1 => .ok (popped, { s'' with len := n })
    else .error .ub
  | _, .dangling => .error .ub
  | [], .none => .ok (Option.none, s)

/-- `Node::steal_some` (lib.rs:393-409) invoked on the node at chain position
`j` after a removal: when the node is under-full (`len < cap / 2`) and has a
successor, either pull the successor's first `cap/2 - len` elements
(when the combined count is `>= cap`: `split_off(diff)` on the successor,
append the kept prefix, leave the rest in the successor), or absorb the whole
successor and unlink (free) it.  Returns the updated chain and the `tail`
pointer (which dangles if the freed node was the tail). -/
def stealSome (nodes : List (List α)) (j cap : Nat) (t : TailPtr) :
    Except Err (List (List α) × TailPtr) :=
  let self := nodes.getD j []
  if self.length < cap / 2 then
    if j + 1 < nodes.length then
      let next := nodes.getD (j + 1) []
      if cap ≤ self.length + next.length then
        let diff := cap / 2 - self.length
        match vecSplitOff next diff with
        | some (nextKeep, right) =>
          .ok ((nodes.set j (self ++ nextKeep)).set (j + 1) right, t)
        | Option.none => .error .vecPanic
      else
        .ok (removeChunkAt (nodes.set j (self ++ next)) (j + 1),
             t.afterRemoveAt (j + 1))
    else .ok (nodes, t)
  else .ok (nodes, t)

/-- `UnrolledLinkedList::remove` (lib.rs:221-236).  Panics when
`index >= len`; resolves via `find_node`, does `data.remove(index - start)`
(a `Vec` panic when the local index is out of the chunk), runs `steal_some`
on that node, and decrements `len` (the guard makes `len >= 1`). -/
def ULL.remove (s : ULL α) (index : Nat) : Except Err (α × ULL α) :=
  if s.len ≤ index then .error .idxPanic else
  match s.findNode index with
  | some (j, start) =>
    match vecRemove (s.nodes.getD j []) (index - start) with
    | some (el, node') =>
      match stealSome (s.nodes.set j node') j s.cap s.tail with
      | .ok (nodes', t') =>
        .ok (el, { s with nodes := nodes', tail := t', len := s.len - 1 })
      | .error e => .error e
    | Option.none => .error .vecPanic
  | Option.none => .error .unreachablePanic

/-- `UnrolledLinkedList::clear` (lib.rs:296): `*self = with_capacity(cap)`. -/
def ULL.clear (s : ULL α) : ULL α := ULL.withCapacity s.cap

/-- The element sequence produced by draining the forward iterator
(`Iter::next`, src/src/iters.rs:97-112).  With the cursor at a node: `next`
yields `data.get(index)` and advances `index`, hopping to the next node
(index 0) once `index + 1 >= data.len()`; so a nonempty chunk yields each of
its elements in order and then moves on, while an *empty* chunk yields
`data.get(0) = None`, which ends the traversal for any consumer.  An absent
node reference also yields `None`. -/
def iterFrom : List (List α) → List α
  | [] => []
  | c :: rest => if c.isEmpty then [] else c ++ iterFrom rest

/-- The full forward traversal of the container (`UnrolledLinkedList::iter`,
src/src/iters.rs:27, starting at `head` with index 0). -/
def ULL.iterList (s : ULL α) : List α := iterFrom s.nodes

/-- One public mutating operation of the container. -/
inductive Op (α : Type) where
  | push (x : α)
  | insert (i : Nat) (x : α)
  | pop
  | remove (i : Nat)
  | clear
deriving DecidableEq, Repr

/-- Run one operation, keeping only the container state. -/
def runOp (s : ULL α) : Op α → Except Err (ULL α)
  | .push x => s.push x
  | .insert i x => s.insert i x
  | .pop => (s.pop).map (fun r => r.2)
  | .remove i => (s.remove i).map (fun r => r.2)
  | .clear => .ok s.clear

/-- Run a sequence of operations left to right, stopping at the first panic
or undefined behavior. -/
def runOps (s : ULL α) : List (Op α) → Except Err (ULL α)
  | [] => .ok s
  | op :: rest => (runOp s op).bind (fun s' => runOps s' rest)

/-- Push each element of a list in order (`push` cannot fail from a
well-formed state, but the result stays in `Except`). -/
def pushAll (s : ULL α) : List α → Except Err (ULL α)
  | [] => .ok s
  | x :: xs => (s.push x).bind (fun s' => pushAll s' xs)

/-- Call `pop` `n` times, collecting the returned optional values. -/
def popTimes (s : ULL α) : Nat → Except Err (List (Option α) × ULL α)
  | 0 => .ok ([], s)
  | n + 1 =>
    (s.pop).bind (fun r =>
      (popTimes r.2 n).map (fun p => (r.1 :: p.1, p.2)))

/-! ### Invariants of reachable states. -/

/-- Every node other than the head holds a nonempty chunk.  (The head chunk
*can* become empty: `pop` on a single-node chain leaves the emptied node in
place, and a split of a short head chunk can leave nothing in it.) -/
def nonHeadNE (s : ULL α) : Prop := ∀ c ∈ s.nodes.tail, c ≠ []

/-- A live `tail` pointer refers to a non-head chain position. -/
def tailOk (s : ULL α) : Prop :=
  ∀ j, s.tail = .pos j → 1 ≤ j ∧ j < s.nodes.length

/-- State invariant preserved by every successfully completing operation on a
container of capacity at least 2. -/
def Inv (s : ULL α) : Prop :=
  2 ≤ s.cap ∧ s.len = sumChunks s ∧ nonHeadNE s ∧ tailOk s

/-- The `tail` pointer is unset on chains of at most one node and refers to
the last node otherwise.  This holds on every push/pop-only history; `insert`
can break it (lib.rs:161 does not advance `tail` when splitting a full tail
node). -/
def tailIsLast (s : ULL α) : Prop :=
  (s.nodes.length ≤ 1 → s.tail = .none) ∧
  (2 ≤ s.nodes.length → s.tail = .pos (s.nodes.length - 1))

/-- Invariant of the popping phase of a push-then-pop history. -/
def Qinv (s : ULL α) : Prop :=
  s.len = sumChunks s ∧ nonHeadNE s ∧ tailIsLast s

/-- Invariant of the pushing phase of a push-then-pop history: additionally a
single node is nonempty and the last of several nodes holds at least two
elements (a fresh split target receives at least half a chunk plus the pushed
element). -/
def Pinv (s : ULL α) : Prop :=
  Qinv s ∧ (s.nodes.length = 1 → s.nodes.getD 0 [] ≠ []) ∧
  (2 ≤ s.nodes.length → 2 ≤ (s.nodes.getD (s.nodes.length - 1) []).length)

/-- The chain is empty only in the freshly constructed (or cleared) state,
where `tail` is unset and `length` is zero.  No operation ever empties the
chain: `pop` leaves the emptied head node allocated. -/
def emptyInv (s : ULL α) : Prop := s.nodes = [] → s.tail = .none ∧ s.len = 0

/-! ### Concrete states used as failing inputs / counterexamples. -/

/-- The list built by `with_capacity(4)` followed by `push 1 .. push 5`:
chunks `[1,2]` and `[3,4,5]`; global index 2 is exactly the first chunk's end
boundary. -/
def S5 : ULL Nat := { cap := 4, len := 5, nodes := [[1, 2], [3, 4, 5]], tail := .pos 1 }

/-- The list built by `with_capacity(4)`, `push 1 .. push 6`, then
`insert(6, 7)`: the insert split the full tail node `[3,4,5,6]` but left the
container's `tail` pointer on the old node (now chain position 1, no longer
last), because lib.rs:161 only updates `tail` when it was `None`. -/
def S7i : ULL Nat :=
  { cap := 4, len := 7, nodes := [[1, 2], [3, 4], [5, 6, 7]], tail := .pos 1 }

/-- The list built by `with_capacity(4)`, `push 1 .. push 7`: same chunks as
`S7i` but with `tail` on the genuinely last node. -/
def S7p : ULL Nat :=
  { cap := 4, len := 7, nodes := [[1, 2], [3, 4], [5, 6, 7]], tail := .pos 2 }

/-- The state after `with_capacity(4)`, `push 1 .. push 6`, `insert(6, 7)`,
then four `pop`s: the head chunk is empty while three elements remain. -/
def SC5 : ULL Nat := { cap := 4, len := 3, nodes := [[], [5, 6, 7]], tail := .none }

/-- The state after `new()` (capacity 8), `push 1`, `pop`: empty, but the
head node is still allocated and `head` still set. -/
def SE : ULL Nat := { cap := 8, len := 0, nodes := [[]], tail := .none }

/-- The result of `remove(0)` on `S5`: the removal leaves the head chunk
under-full, and `steal_some` pulls one element from the successor. -/
def S5R : ULL Nat := { cap := 4, len := 4, nodes := [[2, 3], [4, 5]], tail := .pos 1 }

/-! ### C1 -/

/-- C1: the claim fails on the code.  In the reachable 5-element list `S5`
(capacity 4, pushes 1..5), index 2 is in range (`2 < len = 5`, the element is
`3`), yet `get 2` returns absence: `find_node`'s inclusive upper bound
(lib.rs:334) matches the *first* chunk `[1,2]` at its end boundary, and
`data.get(2)` on a 2-element chunk is `None`. -/
theorem C1_get_misses_in_range_index :
    pushAll (ULL.withCapacity 4) [1, 2, 3, 4, 5] = .ok S5 ∧
    S5.len = 5 ∧ S5.elems = [1, 2, 3, 4, 5] ∧ S5.get 2 = Option.none :=
  ⟨rfl, rfl, rfl, rfl⟩

/-! ### C2 -/

/-- C2: the claim fails on the code.  In the same reachable list `S5`,
`remove 2` with `2 < len = 5` panics (a `Vec::remove` bounds panic): the
inclusive boundary match sends local index 2 into the 2-element chunk
`[1,2]`.  So `remove` is fatal at an in-range index, refuting the
"if and only if" of the claim. -/
theorem C2_remove_panics_at_in_range_index :
    pushAll (ULL.withCapacity 4) [1, 2, 3, 4, 5] = .ok S5 ∧
    2 < S5.len ∧ S5.remove 2 = .error .vecPanic :=
  ⟨rfl, by decide, rfl⟩

/-! ### C3 -/

/-- C3: the claim fails on the code.  On `S5`'s chain `[[1,2],[3,4,5]]`,
index 2 equals the first chunk's end boundary (`shift 0 + len 2`), and the
source `find_node` (inclusive upper bound, lib.rs:334) matches it to that
chunk, returning position 0 with shift 0 — whereas the spec's canonical
half-open rule matches the next chunk (position 1, shift 2). -/
theorem C3_findNode_matches_end_boundary :
    S5.findNode 2 = some (0, 0) ∧ (S5.nodes.getD 0 []).length = 2 ∧
    specFindNodeHalfOpen S5.nodes 2 0 0 = some (1, 2) :=
  ⟨rfl, rfl, rfl⟩

/-! ### C4 -/

/-- C4: the claim fails on the code.  `S7i` is reached by pushes 1..6 and
`insert(6, 7)`; its logical sequence is `[1,2,3,4,5,6,7]` with last element
7, yet `pop` returns `Some 4` and removes a middle element, because the
`tail` pointer was left on a non-last node by the insert's split.  (Four
more pops then reach `SC5`, where `pop` returns `None` while `len = 3`.) -/
theorem C4_pop_returns_non_last_element :
    (pushAll (ULL.withCapacity 4) [1, 2, 3, 4, 5, 6]).bind
        (fun s => s.insert 6 7) = .ok S7i ∧
    S7i.elems = [1, 2, 3, 4, 5, 6, 7] ∧ S7i.elems.getLast? = some 7 ∧
    S7i.pop =
      .ok (some 4, { cap := 4, len := 6, nodes := [[1, 2], [3], [5, 6, 7]], tail := .pos 1 }) ∧
    SC5.pop = .ok (Option.none, SC5) ∧ SC5.len = 3 :=
  ⟨rfl, rfl, rfl, rfl, rfl, rfl⟩

/-! ### C5 (counterexample part) -/

/-- C5: counterexample to the claim as stated.  After the successful
operation sequence `push 1 .. push 6, insert(6,7), pop, pop, pop, pop` on a
capacity-4 list, `length = 3` and the chunk lengths sum to 3, but a full
forward traversal produces no elements at all: the head chunk is empty, so
the iterator's first `next()` yields `None`. -/
theorem C5_traversal_count_differs_from_len :
    runOps (ULL.withCapacity 4)
      [Op.push 1, .push 2, .push 3, .push 4, .push 5, .push 6,
       .insert 6 7, .pop, .pop, .pop, .pop] = .ok SC5 ∧
    SC5.len = 3 ∧ sumChunks SC5 = 3 ∧ SC5.iterList = [] :=
  ⟨rfl, rfl, rfl, rfl⟩

/-! ### C6 (counterexample part) -/

/-- C6: counterexample to the claim as stated.  `new()` then `push 1` then
`pop` leaves `length = 0` while `head` is still `Some` (an allocated node
with an empty chunk): `pop` never clears `head`, so "both `None` iff
`length == 0`" fails in the right-to-left direction. -/
theorem C6_empty_by_pop_keeps_head :
    runOps (ULL.new : ULL Nat) [Op.push 1, Op.pop] = .ok SE ∧
    SE.len = 0 ∧ SE.nodes ≠ [] :=
  ⟨rfl, rfl, by decide⟩

/-! ### C7 (counterexample part) -/

/-- C7: counterexample to the claim as stated.  From the same reachable
6-element capacity-4 list, `insert(6, 7)` and `push 7` produce *different*
containers: the chunks agree but `insert` leaves the `tail` pointer on the
old (now non-last) node.  The subsequent behavior differs: one more `pop`
returns 4 after the insert but 7 after the push. -/
theorem C7_insert_at_len_differs_from_push :
    (pushAll (ULL.withCapacity 4) [1, 2, 3, 4, 5, 6]).bind
        (fun s => s.insert 6 7) = .ok S7i ∧
    (pushAll (ULL.withCapacity 4) [1, 2, 3, 4, 5, 6]).bind
        (fun s => s.push 7) = .ok S7p ∧
    S7i ≠ S7p ∧
    Except.map Prod.fst S7i.pop = .ok (some 4) ∧
    Except.map Prod.fst S7p.pop = .ok (some 7) :=
  ⟨rfl, rfl, by decide, rfl, rfl⟩

/-! ### C9 -/

/-- C9: counterexample to the claim as stated.  `split` on a 5-element chunk
(`split_off(len / 2)` with `5 / 2 = 2`) leaves the original node with the
*lower* 2 elements — `⌊5/2⌋`, not the claimed `⌈5/2⌉ = 3` — and moves 3 into
the new node. -/
theorem C9_odd_length_split_counts :
    splitChunk ([1, 2, 3, 4, 5] : List Nat) = ([1, 2], [3, 4, 5]) ∧
    (splitChunk ([1, 2, 3, 4, 5] : List Nat)).1.length ≠ (5 + 1) / 2 :=
  ⟨rfl, by decide⟩

/-- C9 (amended): for every chunk, `split` keeps the lower `⌊len/2⌋` elements
in the original node and moves the upper `⌈len/2⌉ = len - ⌊len/2⌋` elements
into the new node, and the concatenation of the two halves is the original
chunk. -/
theorem C9_split_lower_floor_upper_ceil (l : List α) :
    (splitChunk l).1 ++ (splitChunk l).2 = l ∧
    (splitChunk l).1.length = l.length / 2 ∧
    (splitChunk l).2.length = l.length - l.length / 2 := by
  refine ⟨List.take_append_drop _ _, ?_, ?_⟩
  · simp [splitChunk, List.length_take, Nat.min_eq_left (Nat.div_le_self _ _)]
  · simp [splitChunk]

/-! ### List surgery helper lemmas -/

theorem sumL_nil : sumL ([] : List (List α)) = 0 := rfl

theorem sumL_cons (c : List α) (l : List (List α)) :
    sumL (c :: l) = c.length + sumL l := by
  simp [sumL]

theorem sumL_append (l₁ l₂ : List (List α)) :
    sumL (l₁ ++ l₂) = sumL l₁ + sumL l₂ := by
  simp [sumL]

theorem length_insertChunkAt (l : List (List α)) (r : Nat) (c : List α) :
    (insertChunkAt l r c).length = l.length + 1 := by
  simp [insertChunkAt]
  omega

theorem nodes_decomp {l : List (List α)} {j : Nat} (h : j < l.length) :
    l = l.take j ++ l.getD j [] :: l.drop (j + 1) := by
  induction l generalizing j with
  | nil => simp at h
  | cons c rest ih =>
    cases j with
    | zero => simp
    | succ j =>
      simp only [List.take_succ_cons, List.getD_cons_succ, List.drop_succ_cons,
        List.cons_append, List.cons.injEq, true_and]
      exact ih (by simpa using h)

theorem length_take_of_le {l : List β} {j : Nat} (h : j ≤ l.length) :
    (l.take j).length = j := by
  simp [List.length_take, Nat.min_eq_left h]

theorem set_at (pre : List β) (c c' : β) (post : List β) :
    (pre ++ c :: post).set pre.length c' = pre ++ c' :: post := by
  induction pre with
  | nil => rfl
  | cons a t ih => simpa using ih

theorem set_succ_at (pre : List β) (c d d' : β) (post : List β) :
    (pre ++ c :: d :: post).set (pre.length + 1) d' = pre ++ c :: d' :: post := by
  induction pre with
  | nil => rfl
  | cons a t ih => simpa using ih

theorem getD_at (pre : List β) (c : β) (post : List β) (dflt : β) :
    (pre ++ c :: post).getD pre.length dflt = c := by
  induction pre with
  | nil => rfl
  | cons a t ih => simpa using ih

theorem getD_succ_at (pre : List β) (c d : β) (post : List β) (dflt : β) :
    (pre ++ c :: d :: post).getD (pre.length + 1) dflt = d := by
  induction pre with
  | nil => rfl
  | cons a t ih => simpa using ih

theorem take_at (pre : List β) (c : β) (post : List β) :
    (pre ++ c :: post).take pre.length = pre := by
  induction pre with
  | nil => rfl
  | cons a t ih => simpa using ih

theorem drop_succ_at (pre : List β) (c : β) (post : List β) :
    (pre ++ c :: post).drop (pre.length + 1) = post := by
  induction pre with
  | nil => rfl
  | cons a t ih => simpa using ih

theorem insertChunkAt_succ_at (pre : List (List α)) (c d : List α)
    (post : List (List α)) :
    insertChunkAt (pre ++ c :: post) (pre.length + 1) d = pre ++ c :: d :: post := by
  induction pre with
  | nil => rfl
  | cons a t ih =>
    simp only [insertChunkAt, List.cons_append, List.length_cons,
      List.take_succ_cons, List.drop_succ_cons] at ih ⊢
    simpa using ih

theorem removeChunkAt_at (pre : List (List α)) (c : List α)
    (post : List (List α)) :
    removeChunkAt (pre ++ c :: post) pre.length = pre ++ post := by
  induction pre with
  | nil => rfl
  | cons a t ih =>
    simp only [removeChunkAt, List.cons_append, List.length_cons,
      List.take_succ_cons, List.drop_succ_cons] at ih ⊢
    simpa using ih

theorem take_set_le {l : List β} {j n : Nat} {c : β} (h : n ≤ j) :
    (l.set j c).take n = l.take n := by
  induction l generalizing j n with
  | nil => simp
  | cons a t ih =>
    cases j with
    | zero => cases n with
      | zero => simp
      | succ n => omega
    | succ j =>
      cases n with
      | zero => simp
      | succ n => simpa using ih (by omega)

theorem drop_set_lt {l : List β} {j n : Nat} {c : β} (h : j < n) :
    (l.set j c).drop n = l.drop n := by
  induction l generalizing j n with
  | nil => simp
  | cons a t ih =>
    cases j with
    | zero => cases n with
      | zero => omega
      | succ n => simp
    | succ j =>
      cases n with
      | zero => omega
      | succ n => simpa using ih (by omega)

theorem take_removeChunkAt_le {l : List (List α)} {r n : Nat} (h : n ≤ r) :
    (removeChunkAt l r).take n = l.take n := by
  induction l generalizing r n with
  | nil => simp [removeChunkAt]
  | cons a t ih =>
    cases n with
    | zero => simp
    | succ n =>
      cases r with
      | zero => omega
      | succ r =>
        simp only [removeChunkAt, List.take_succ_cons, List.drop_succ_cons,
          List.cons_append] at ih ⊢
        simpa using ih (by omega)

theorem drop_removeChunkAt {l : List (List α)} {r : Nat} (h : r < l.length) :
    (removeChunkAt l r).drop r = l.drop (r + 1) := by
  induction l generalizing r with
  | nil => simp at h
  | cons a t ih =>
    cases r with
    | zero => simp [removeChunkAt]
    | succ r =>
      simp only [removeChunkAt, List.take_succ_cons, List.drop_succ_cons,
        List.cons_append] at ih ⊢
      exact ih (by simpa using h)

theorem dropLast_append_ne {A B : List α} (h : B ≠ []) :
    (A ++ B).dropLast = A ++ B.dropLast := by
  induction A with
  | nil => rfl
  | cons a t ih =>
    have : t ++ B ≠ [] := by
      intro hc
      exact h (List.append_eq_nil.mp hc).2
    simp only [List.cons_append, List.dropLast_cons_of_ne_nil this]
    simpa using ih

theorem getLast?_append_ne {A B : List α} (h : B ≠ []) :
    (A ++ B).getLast? = B.getLast? :=
  List.getLast?_append_of_ne_nil A h

theorem mem_take_subset {l : List β} {n : Nat} {a : β} (h : a ∈ l.take n) :
    a ∈ l :=
  List.take_subset n l h

theorem mem_drop_subset {l : List β} {n : Nat} {a : β} (h : a ∈ l.drop n) :
    a ∈ l :=
  List.drop_subset n l h

theorem decomp {l : List β} {j : Nat} (h : j < l.length) (d : β) :
    l = l.take j ++ l.getD j d :: l.drop (j + 1) := by
  induction l generalizing j with
  | nil => simp at h
  | cons c rest ih =>
    cases j with
    | zero => simp
    | succ j =>
      simp only [List.take_succ_cons, List.getD_cons_succ, List.drop_succ_cons,
        List.cons_append, List.cons.injEq, true_and]
      exact ih (by simpa using h)

theorem set_decomp {l : List β} {j : Nat} (h : j < l.length) (c : β) :
    l.set j c = l.take j ++ c :: l.drop (j + 1) := by
  induction l generalizing j with
  | nil => simp at h
  | cons a rest ih =>
    cases j with
    | zero => simp
    | succ j =>
      simp only [List.set_cons_succ, List.take_succ_cons, List.drop_succ_cons,
        List.cons_append, List.cons.injEq, true_and]
      exact ih (by simpa using h)

theorem getD_set_self {l : List β} {j : Nat} (h : j < l.length) (c d : β) :
    (l.set j c).getD j d = c := by
  induction l generalizing j with
  | nil => simp at h
  | cons a rest ih =>
    cases j with
    | zero => simp
    | succ j =>
      simp only [List.set_cons_succ, List.getD_cons_succ]
      exact ih (by simpa using h)

theorem insertChunkAt_decomp {l : List (List α)} {j : Nat}
    (h : j < l.length) (c : List α) :
    insertChunkAt l (j + 1) c = l.take j ++ l.getD j [] :: c :: l.drop (j + 1) := by
  induction l generalizing j with
  | nil => simp at h
  | cons a rest ih =>
    cases j with
    | zero => simp [insertChunkAt]
    | succ j =>
      simp only [insertChunkAt, List.take_succ_cons, List.drop_succ_cons,
        List.getD_cons_succ, List.cons_append, List.cons.injEq, true_and] at ih ⊢
      exact ih (by simpa using h)

theorem mem_tail_append {A B : List β} {d : β} (h : d ∈ (A ++ B).tail) :
    d ∈ A.tail ∨ (A ≠ [] ∧ d ∈ B) ∨ (A = [] ∧ d ∈ B.tail) := by
  cases A with
  | nil =>
    right; right
    exact ⟨rfl, by simpa using h⟩
  | cons a A' =>
    simp only [List.cons_append, List.tail_cons] at h
    rcases List.mem_append.mp h with h | h
    · left
      simpa using h
    · right; left
      exact ⟨by simp, h⟩

theorem mem_tail_take {l : List β} {j : Nat} {d : β}
    (h : d ∈ (l.take j).tail) : d ∈ l.tail := by
  cases l with
  | nil => simp at h
  | cons a t =>
    cases j with
    | zero => simp at h
    | succ j =>
      simp only [List.take_succ_cons, List.tail_cons] at h ⊢
      exact mem_take_subset h

theorem drop_succ_eq_tail_drop (l : List β) (n : Nat) :
    l.drop (n + 1) = l.tail.drop n := by
  cases l with
  | nil => simp
  | cons a t => simp

theorem mem_drop_succ_tail {l : List β} {n : Nat} {d : β}
    (h : d ∈ l.drop (n + 1)) : d ∈ l.tail := by
  rw [drop_succ_eq_tail_drop] at h
  exact mem_drop_subset h

theorem splitChunk_append (l : List α) :
    (splitChunk l).1 ++ (splitChunk l).2 = l :=
  List.take_append_drop _ _

theorem splitChunk_length_left (l : List α) :
    (splitChunk l).1.length = l.length / 2 := by
  simp [splitChunk, List.length_take, Nat.min_eq_left (Nat.div_le_self _ _)]

theorem splitChunk_length_right (l : List α) :
    (splitChunk l).2.length = l.length - l.length / 2 := by
  simp [splitChunk]

theorem splitChunk_left_ne_nil {l : List α} (h : 2 ≤ l.length) :
    (splitChunk l).1 ≠ [] := by
  have := splitChunk_length_left l
  intro hc
  rw [hc] at this
  simp at this
  omega

theorem splitChunk_right_ne_nil {l : List α} (h : 1 ≤ l.length) :
    (splitChunk l).2 ≠ [] := by
  have := splitChunk_length_right l
  intro hc
  rw [hc] at this
  simp at this
  omega

theorem getD_set_ne {l : List β} {j k : Nat} (h : j ≠ k) (c d : β) :
    (l.set j c).getD k d = l.getD k d := by
  induction l generalizing j k with
  | nil => simp
  | cons a rest ih =>
    cases j with
    | zero =>
      cases k with
      | zero => omega
      | succ k => simp
    | succ j =>
      cases k with
      | zero => simp
      | succ k =>
        simp only [List.set_cons_succ, List.getD_cons_succ]
        exact ih (by omega)

theorem length_removeChunkAt {l : List (List α)} {r : Nat} (h : r < l.length) :
    (removeChunkAt l r).length = l.length - 1 := by
  simp only [removeChunkAt, List.length_append, List.length_take,
    List.length_drop]
  omega

theorem sumL_decomp {l : List (List α)} {j : Nat} (h : j < l.length) :
    sumL l = sumL (l.take j) + (l.getD j []).length + sumL (l.drop (j + 1)) := by
  conv_lhs => rw [decomp h []]
  rw [sumL_append, sumL_cons]
  omega

theorem split_insert_shape {l : List (List α)} {j : Nat} (h : j < l.length)
    (L R : List α) :
    insertChunkAt (l.set j L) (j + 1) R = l.take j ++ L :: R :: l.drop (j + 1) := by
  rw [insertChunkAt_decomp (by simpa using h) R, getD_set_self h L,
    take_set_le (le_refl j), drop_set_lt (by omega)]

theorem set_set_decomp {l : List (List α)} {j : Nat} (h : j + 1 < l.length)
    (A B : List α) :
    (l.set j A).set (j + 1) B = l.take j ++ A :: B :: l.drop (j + 2) := by
  induction l generalizing j with
  | nil => simp at h
  | cons a rest ih =>
    cases j with
    | zero =>
      cases rest with
      | nil => simp at h
      | cons b rest' => simp
    | succ j =>
      simp only [List.set_cons_succ, List.take_succ_cons, List.drop_succ_cons,
        List.cons_append, List.cons.injEq, true_and]
      exact ih (by simpa using h)

theorem set_removeChunkAt_decomp {l : List (List α)} {j : Nat}
    (h : j + 1 < l.length) (A : List α) :
    removeChunkAt (l.set j A) (j + 1) = l.take j ++ A :: l.drop (j + 2) := by
  induction l generalizing j with
  | nil => simp at h
  | cons a rest ih =>
    cases j with
    | zero =>
      cases rest with
      | nil => simp at h
      | cons b rest' => simp [removeChunkAt]
    | succ j =>
      simp only [List.set_cons_succ, List.take_succ_cons, List.drop_succ_cons,
        List.cons_append, List.cons.injEq, true_and, removeChunkAt] at ih ⊢
      exact ih (by simpa using h)

theorem removeChunkAt_set_self (l : List (List α)) (j : Nat) (c : List α) :
    removeChunkAt (l.set j c) j = removeChunkAt l j := by
  unfold removeChunkAt
  rw [take_set_le (le_refl j), drop_set_lt (by omega)]

theorem sumL_removeChunkAt {l : List (List α)} {r : Nat} (h : r < l.length) :
    sumL (removeChunkAt l r) + (l.getD r []).length = sumL l := by
  have hd := sumL_decomp h
  unfold removeChunkAt
  rw [sumL_append]
  omega

theorem take_ne_nil_of_one_le {l : List β} {j : Nat} (hj : 1 ≤ j)
    (hl : l ≠ []) : l.take j ≠ [] := by
  cases l with
  | nil => exact absurd rfl hl
  | cons a t =>
    cases j with
    | zero => omega
    | succ j => simp

theorem mem_drop_tail {l : List β} {n : Nat} (hn : 1 ≤ n) {d : β}
    (h : d ∈ l.drop n) : d ∈ l.tail := by
  obtain ⟨m, rfl⟩ : ∃ m, n = m + 1 := ⟨n - 1, by omega⟩
  exact mem_drop_succ_tail h

theorem nonHeadNE_shape_two {l : List (List α)} {j r : Nat} {L R : List α}
    (hall : ∀ c ∈ l.tail, c ≠ []) (hr : 1 ≤ r)
    (hL : 1 ≤ j → L ≠ []) (hR : R ≠ []) :
    ∀ c ∈ (l.take j ++ L :: R :: l.drop r).tail, c ≠ [] := by
  intro c hc
  rcases mem_tail_append hc with hc | ⟨hA, hc⟩ | ⟨hA, hc⟩
  · exact hall c (mem_tail_take hc)
  · have hj1 : 1 ≤ j := by
      by_contra hj
      have hj0 : j = 0 := by omega
      rw [hj0] at hA
      simp at hA
    rw [List.mem_cons] at hc
    rcases hc with rfl | hc
    · exact hL hj1
    rw [List.mem_cons] at hc
    rcases hc with rfl | hc
    · exact hR
    · exact hall c (mem_drop_tail hr hc)
  · simp only [List.tail_cons, List.mem_cons] at hc
    rcases hc with rfl | hc
    · exact hR
    · exact hall c (mem_drop_tail hr hc)

theorem nonHeadNE_shape_one {l : List (List α)} {j r : Nat} {L : List α}
    (hall : ∀ c ∈ l.tail, c ≠ []) (hr : 1 ≤ r) (hL : 1 ≤ j → L ≠ []) :
    ∀ c ∈ (l.take j ++ L :: l.drop r).tail, c ≠ [] := by
  intro c hc
  rcases mem_tail_append hc with hc | ⟨hA, hc⟩ | ⟨hA, hc⟩
  · exact hall c (mem_tail_take hc)
  · have hj1 : 1 ≤ j := by
      by_contra hj
      have hj0 : j = 0 := by omega
      rw [hj0] at hA
      simp at hA
    rw [List.mem_cons] at hc
    rcases hc with rfl | hc
    · exact hL hj1
    · exact hall c (mem_drop_tail hr hc)
  · simp only [List.tail_cons] at hc
    exact hall c (mem_drop_tail hr hc)

theorem getD_mem_tail {l : List β} {k : Nat} (h1 : 1 ≤ k) (h2 : k < l.length)
    (d : β) : l.getD k d ∈ l.tail := by
  cases l with
  | nil => simp at h2
  | cons a t =>
    obtain ⟨m, rfl⟩ : ∃ m, k = m + 1 := ⟨k - 1, by omega⟩
    simp only [List.getD_cons_succ, List.tail_cons]
    have hm : m < t.length := by simpa using h2
    rw [List.getD_eq_getElem t d hm]
    exact List.getElem_mem hm

theorem drop_eq_getD_cons {l : List β} {n : Nat} (h : n < l.length) (d : β) :
    l.drop n = l.getD n d :: l.drop (n + 1) := by
  induction l generalizing n with
  | nil => simp at h
  | cons a t ih =>
    cases n with
    | zero => simp
    | succ n =>
      simp only [List.drop_succ_cons, List.getD_cons_succ]
      exact ih (by simpa using h)

theorem sumL_decomp_two {l : List (List α)} {j : Nat} (h : j + 1 < l.length) :
    sumL l = sumL (l.take j) + (l.getD j []).length +
      (l.getD (j + 1) []).length + sumL (l.drop (j + 2)) := by
  have h1 := sumL_decomp (by omega : j < l.length)
  have h2 : l.drop (j + 1) = l.getD (j + 1) [] :: l.drop (j + 2) :=
    drop_eq_getD_cons h []
  rw [h2, sumL_cons] at h1
  omega

theorem sumL_shape_one {l : List (List α)} {j : Nat} (h : j < l.length)
    (A : List α) :
    sumL (l.take j ++ A :: l.drop (j + 1)) + (l.getD j []).length =
      sumL l + A.length := by
  have hd := sumL_decomp h
  rw [sumL_append, sumL_cons]
  omega

theorem sumL_shape_two {l : List (List α)} {j : Nat} (h : j < l.length)
    (A B : List α) :
    sumL (l.take j ++ A :: B :: l.drop (j + 1)) + (l.getD j []).length =
      sumL l + A.length + B.length := by
  have hd := sumL_decomp h
  rw [sumL_append, sumL_cons, sumL_cons]
  omega

theorem sumL_shape_two_far {l : List (List α)} {j : Nat} (h : j + 1 < l.length)
    (A B : List α) :
    sumL (l.take j ++ A :: B :: l.drop (j + 2)) + (l.getD j []).length +
      (l.getD (j + 1) []).length = sumL l + A.length + B.length := by
  have hd := sumL_decomp_two h
  rw [sumL_append, sumL_cons, sumL_cons]
  omega

theorem sumL_shape_one_far {l : List (List α)} {j : Nat} (h : j + 1 < l.length)
    (A : List α) :
    sumL (l.take j ++ A :: l.drop (j + 2)) + (l.getD j []).length +
      (l.getD (j + 1) []).length = sumL l + A.length := by
  have hd := sumL_decomp_two h
  rw [sumL_append, sumL_cons]
  omega

theorem length_shape_one {l : List (List α)} {j : Nat} (h : j < l.length)
    (A : List α) :
    (l.take j ++ A :: l.drop (j + 1)).length = l.length := by
  simp only [List.length_append, List.length_take, List.length_cons,
    List.length_drop]
  omega

theorem length_shape_two {l : List (List α)} {j : Nat} (h : j < l.length)
    (A B : List α) :
    (l.take j ++ A :: B :: l.drop (j + 1)).length = l.length + 1 := by
  simp only [List.length_append, List.length_take, List.length_cons,
    List.length_drop]
  omega

theorem length_shape_two_far {l : List (List α)} {j : Nat}
    (h : j + 1 < l.length) (A B : List α) :
    (l.take j ++ A :: B :: l.drop (j + 2)).length = l.length := by
  simp only [List.length_append, List.length_take, List.length_cons,
    List.length_drop]
  omega

theorem length_shape_one_far {l : List (List α)} {j : Nat}
    (h : j + 1 < l.length) (A : List α) :
    (l.take j ++ A :: l.drop (j + 2)).length = l.length - 1 := by
  simp only [List.length_append, List.length_take, List.length_cons,
    List.length_drop]
  omega

theorem nonHeadNE_removeChunkAt {l : List (List α)} {r : Nat}
    (hall : ∀ c ∈ l.tail, c ≠ []) (hr : 1 ≤ r) :
    ∀ c ∈ (removeChunkAt l r).tail, c ≠ [] := by
  intro c hc
  unfold removeChunkAt at hc
  rcases mem_tail_append hc with hc | ⟨hA, hc⟩ | ⟨hA, hc⟩
  · exact hall c (mem_tail_take hc)
  · exact hall c (mem_drop_succ_tail hc)
  · cases l with
    | nil => simp at hc
    | cons a t => exact absurd hA (take_ne_nil_of_one_le hr (by simp))

/-! ### `find_node` characterization lemmas -/

theorem findNodeAux_some {chunks : List (List α)} {idx shift j0 p start : Nat}
    (h : findNodeAux chunks idx shift j0 = some (p, start)) :
    ∃ k, k < chunks.length ∧ p = j0 + k ∧
      start = shift + sumL (chunks.take k) ∧
      start ≤ idx ∧ idx ≤ start + (chunks.getD k []).length ∧
      (∀ m, m < k → shift + sumL (chunks.take (m + 1)) < idx) := by
  induction chunks generalizing shift j0 with
  | nil => simp [findNodeAux] at h
  | cons c rest ih =>
    simp only [findNodeAux] at h
    by_cases hc : shift ≤ idx ∧ idx ≤ shift + c.length
    · rw [if_pos hc] at h
      simp only [Option.some.injEq, Prod.mk.injEq] at h
      obtain ⟨hp, hs⟩ := h
      refine ⟨0, by simp, by omega,
        by simp only [List.take_zero, sumL_nil]; omega, by omega, ?_, ?_⟩
      · simpa [← hs] using hc.2
      · intro m hm
        omega
    · rw [if_neg hc] at h
      obtain ⟨k, hk, hp, hs, h1, h2, h3⟩ := ih h
      have hlen : 0 ≤ sumL (rest.take k) := Nat.zero_le _
      rw [not_and] at hc
      have hstrict : shift + c.length < idx := by
        have hle : shift + c.length ≤ idx := by omega
        have := hc (by omega)
        omega
      refine ⟨k + 1, by simpa using hk, by omega, ?_, h1, ?_, ?_⟩
      · simp only [List.take_succ_cons, sumL_cons]
        omega
      · simpa using h2
      · intro m hm
        cases m with
        | zero =>
          simp only [List.take_succ_cons, List.take_zero, sumL_cons, sumL_nil]
          omega
        | succ m =>
          have := h3 m (by omega)
          simp only [List.take_succ_cons, sumL_cons]
          omega

theorem findNodeAux_isSome {chunks : List (List α)} {idx shift : Nat}
    (j0 : Nat) (hne : chunks ≠ []) (h1 : shift ≤ idx)
    (h2 : idx ≤ shift + sumL chunks) :
    (findNodeAux chunks idx shift j0).isSome := by
  induction chunks generalizing shift j0 with
  | nil => exact absurd rfl hne
  | cons c rest ih =>
    simp only [findNodeAux]
    by_cases hc : shift ≤ idx ∧ idx ≤ shift + c.length
    · rw [if_pos hc]
      rfl
    · rw [if_neg hc]
      rw [not_and] at hc
      have h3 : shift + c.length < idx := by
        have := hc h1
        omega
      cases rest with
      | nil =>
        rw [sumL_cons, sumL_nil] at h2
        omega
      | cons d rest' =>
        rw [sumL_cons] at h2
        exact ih (j0 + 1) (List.cons_ne_nil d rest') (by omega) (by omega)

/-- Everything the match of `find_node` guarantees about its result: the
returned position is in range, the returned shift is the sum of the
preceding chunk lengths, the index lies in the inclusive window
`[shift, shift + len]`, and — because earlier nodes are tried first — an
index matched to a non-head node is strictly past that node's start. -/
theorem findNode_decomp {s : ULL α} {idx j start : Nat}
    (h : s.findNode idx = some (j, start)) :
    j < s.nodes.length ∧ start = sumL (s.nodes.take j) ∧ start ≤ idx ∧
      idx ≤ start + (s.nodes.getD j []).length ∧ (1 ≤ j → start < idx) := by
  obtain ⟨k, hk, hp, hs, h1, h2, h3⟩ := findNodeAux_some h
  have hj : j = k := by omega
  subst hj
  refine ⟨hk, by simpa using hs, h1, h2, ?_⟩
  intro h1j
  have := h3 (j - 1) (by omega)
  rw [show j - 1 + 1 = j from by omega] at this
  omega

/-- When every chunk total is accounted for (`idx ≤ sum`), `find_node` on a
nonempty chain always matches a node. -/
theorem findNode_isSome {s : ULL α} {idx : Nat} (hne : s.nodes ≠ [])
    (h : idx ≤ sumChunks s) : (s.findNode idx).isSome :=
  findNodeAux_isSome 0 hne (Nat.zero_le idx) (by simpa [sumChunks] using h)

/-- `find_node` at index `sum of all chunks` matches exactly the last node
when that node is nonempty (earlier nodes all end strictly before). -/
theorem findNodeAux_last {pre : List (List α)} {last : List α}
    (hlast : last ≠ []) (shift j0 : Nat) :
    findNodeAux (pre ++ [last]) (shift + sumL pre + last.length) shift j0 =
      some (j0 + pre.length, shift + sumL pre) := by
  induction pre generalizing shift j0 with
  | nil =>
    simp only [List.nil_append, findNodeAux, sumL_nil]
    rw [if_pos (by omega)]
    simp
  | cons c pre' ih =>
    have hpos : 0 < last.length := List.length_pos.mpr hlast
    simp only [List.cons_append, findNodeAux, sumL_cons, List.length_cons,
      List.append_eq]
    rw [if_neg (by rw [not_and]; intro _; omega)]
    have e1 : shift + (c.length + sumL pre') + last.length =
        shift + c.length + sumL pre' + last.length := by omega
    rw [e1, ih (shift + c.length) (j0 + 1)]
    have e2 : j0 + 1 + pre'.length = j0 + (pre'.length + 1) := by omega
    have e3 : shift + c.length + sumL pre' = shift + (c.length + sumL pre') := by
      omega
    rw [e2, e3]

/-! ### Characterizations of successful operations -/

/-- Complete case analysis of a successful `push`. -/
theorem push_ok_cases {s s' : ULL α} {x : α} (h : s.push x = .ok s') :
    s'.cap = s.cap ∧ s'.len = s.len + 1 ∧
    ((s.nodes = [] ∧ s.tail = .none ∧ s'.nodes = [[x]] ∧ s'.tail = .none) ∨
     (∃ j, j < s.nodes.length ∧
        (s.tail = .pos j ∨ (s.tail = .none ∧ j = 0)) ∧
        ((s.cap ≤ (s.nodes.getD j []).length ∧
          s'.nodes = s.nodes.take j ++ (splitChunk (s.nodes.getD j [])).1 ::
            ((splitChunk (s.nodes.getD j [])).2 ++ [x]) :: s.nodes.drop (j + 1) ∧
          s'.tail = .pos (j + 1)) ∨
         ((s.nodes.getD j []).length < s.cap ∧
          s'.nodes =
            s.nodes.take j ++ ((s.nodes.getD j []) ++ [x]) :: s.nodes.drop (j + 1) ∧
          s'.tail = s.tail)))) := by
  unfold ULL.push at h
  split at h
  · rename_i j heq
    split at h
    · rename_i hjlt
      simp only [Except.ok.injEq] at h
      subst h
      unfold ULL.pushAt
      by_cases hfull : s.cap ≤ (s.nodes.getD j []).length
      · rw [if_pos hfull]
        refine ⟨rfl, rfl, Or.inr ⟨j, hjlt, Or.inl heq, Or.inl ⟨hfull, ?_, rfl⟩⟩⟩
        exact split_insert_shape hjlt _ _
      · rw [if_neg hfull]
        refine ⟨rfl, rfl, Or.inr ⟨j, hjlt, Or.inl heq,
          Or.inr ⟨by omega, ?_, rfl⟩⟩⟩
        exact set_decomp hjlt _
    · exact Except.noConfusion h
  · exact Except.noConfusion h
  · rename_i heq
    split at h
    · rename_i hnil
      simp only [Except.ok.injEq] at h
      subst h
      exact ⟨rfl, rfl, Or.inl ⟨hnil, heq, rfl, heq ▸ rfl⟩⟩
    · rename_i a rest hcons
      simp only [Except.ok.injEq] at h
      subst h
      have h0 : 0 < s.nodes.length := by rw [hcons]; simp
      unfold ULL.pushAt
      by_cases hfull : s.cap ≤ (s.nodes.getD 0 []).length
      · rw [if_pos hfull]
        refine ⟨rfl, rfl, Or.inr ⟨0, h0, Or.inr ⟨heq, rfl⟩,
          Or.inl ⟨hfull, ?_, rfl⟩⟩⟩
        exact split_insert_shape h0 _ _
      · rw [if_neg hfull]
        refine ⟨rfl, rfl, Or.inr ⟨0, h0, Or.inr ⟨heq, rfl⟩,
          Or.inr ⟨by omega, ?_, rfl⟩⟩⟩
        exact set_decomp h0 _

/-- Case analysis of `unlink_last` when `tail` is a live pointer to chain
position `j`: a tail aliasing `head` has no `prev` and nothing happens; a
tail at position 1 is `head`'s direct successor and is unlinked, clearing
`tail`; a deeper tail is unlinked through its `prev`, which becomes the new
`tail`. -/
theorem unlinkLast_spec {s : ULL α} {j : Nat} (heqt : s.tail = .pos j)
    (hjlt : j < s.nodes.length) :
    (j = 0 ∧ s.unlinkLast = s) ∨
    (j = 1 ∧ s.unlinkLast =
      { s with nodes := removeChunkAt s.nodes 1, tail := .none }) ∨
    (2 ≤ j ∧ s.unlinkLast =
      { s with nodes := removeChunkAt s.nodes j, tail := .pos (j - 1) }) := by
  unfold ULL.unlinkLast
  split
  · rename_i hnil
    rw [hnil] at hjlt
    simp at hjlt
  · rename_i f rest hcons
    split
    · rename_i j' heqt'
      rw [heqt] at heqt'
      injection heqt' with hj
      subst hj
      have hrest : j = 1 → rest.isEmpty = false := by
        intro h1
        rw [hcons] at hjlt
        simp only [List.length_cons] at hjlt
        cases rest with
        | nil => simp at hjlt; omega
        | cons a t => simp
      by_cases h1 : rest.isEmpty = false ∧ j = 1
      · rw [if_pos h1]
        exact Or.inr (Or.inl ⟨h1.2, rfl⟩)
      · rw [if_neg h1]
        by_cases h2 : 1 ≤ j
        · rw [if_pos h2]
          have hj2 : 2 ≤ j := by
            by_contra hlt
            have hj1 : j = 1 := by omega
            exact h1 ⟨hrest hj1, hj1⟩
          exact Or.inr (Or.inr ⟨hj2, rfl⟩)
        · rw [if_neg h2]
          exact Or.inl ⟨by omega, rfl⟩
    · rename_i hne
      rw [heqt] at hne
      exact absurd rfl (hne j)

/-- Complete case analysis of a successful `pop`. -/
theorem pop_ok_cases {s s' : ULL α} {v : Option α} (h : s.pop = .ok (v, s')) :
    s'.cap = s.cap ∧
    ((s.tail = .none ∧ (s.nodes = [] ∨ s.nodes.getD 0 [] = []) ∧
        v = Option.none ∧ s' = s) ∨
     (s.tail = .none ∧ s.nodes ≠ [] ∧ s.nodes.getD 0 [] ≠ [] ∧ 1 ≤ s.len ∧
        v = (s.nodes.getD 0 []).getLast? ∧ s'.len = s.len - 1 ∧
        s'.nodes = s.nodes.set 0 (s.nodes.getD 0 []).dropLast ∧
        s'.tail = .none) ∨
     (∃ j, s.tail = .pos j ∧ j < s.nodes.length ∧ 1 ≤ s.len ∧
        v = (s.nodes.getD j []).getLast? ∧ s'.len = s.len - 1 ∧
        (((s.nodes.getD j []).dropLast ≠ [] ∧
            s'.nodes = s.nodes.set j (s.nodes.getD j []).dropLast ∧
            s'.tail = .pos j) ∨
         ((s.nodes.getD j []).dropLast = [] ∧
          ((j = 0 ∧ s'.nodes = s.nodes.set 0 [] ∧ s'.tail = .pos 0) ∨
           (j = 1 ∧ s'.nodes = removeChunkAt s.nodes 1 ∧ s'.tail = .none) ∨
           (2 ≤ j ∧ s'.nodes = removeChunkAt s.nodes j ∧
             s'.tail = .pos (j - 1))))))) := by
  unfold ULL.pop at h
  split at h
  · -- (Some(f), None) arm
    rename_i f rest heqn heqt
    split at h
    · -- head chunk empty: yield None, state unchanged
      rename_i hfe
      simp only [Except.ok.injEq, Prod.mk.injEq] at h
      obtain ⟨hv, hs'⟩ := h
      subst hv
      subst hs'
      refine ⟨rfl, Or.inl ⟨heqt, Or.inr ?_, rfl, rfl⟩⟩
      rw [heqn]
      simpa using hfe
    · rename_i hfe
      split at h
      · exact Except.noConfusion h
      · rename_i n hlen
        simp only [Except.ok.injEq, Prod.mk.injEq] at h
        obtain ⟨hv, hs'⟩ := h
        subst hv
        subst hs'
        have hf : f ≠ [] := by
          intro hc
          subst hc
          simp at hfe
        refine ⟨rfl, Or.inr (Or.inl ⟨heqt, by rw [heqn]; simp, ?_, by omega,
          ?_, by change n = s.len - 1; omega, ?_, heqt⟩)⟩
        · rw [heqn]
          simpa using hf
        · rw [heqn]
          simp
        · rw [heqn]
          simp
  · -- (_, Some(l)) arm
    rename_i j heqt
    split at h
    · rename_i hjlt
      simp only [] at h
      split at h
      · exact Except.noConfusion h
      · rename_i n hlen
        simp only [Except.ok.injEq, Prod.mk.injEq] at h
        obtain ⟨hv, hs'⟩ := h
        refine ⟨?_, Or.inr (Or.inr ⟨j, heqt, hjlt, by omega, ?_, ?_, ?_⟩)⟩
        · rw [← hs']
          by_cases hemp : (s.nodes.getD j []).dropLast.isEmpty = true
          · rw [if_pos hemp]
            have hu := unlinkLast_spec (s :=
              { cap := s.cap, len := s.len,
                nodes := s.nodes.set j (s.nodes.getD j []).dropLast,
                tail := s.tail }) (j := j) heqt
              (by simp only [List.length_set]; exact hjlt)
            rcases hu with ⟨_, hu⟩ | ⟨_, hu⟩ | ⟨_, hu⟩ <;> rw [hu]
          · rw [if_neg hemp]
        · rw [← hv]
        · rw [← hs']
          show n = s.len - 1
          omega
        · by_cases hemp : (s.nodes.getD j []).dropLast.isEmpty = true
          · have hdl : (s.nodes.getD j []).dropLast = [] := by
              simpa using hemp
            rw [if_pos hemp] at hs'
            have hu := unlinkLast_spec (s :=
              { cap := s.cap, len := s.len,
                nodes := s.nodes.set j (s.nodes.getD j []).dropLast,
                tail := s.tail }) (j := j) heqt
              (by simp only [List.length_set]; exact hjlt)
            rcases hu with ⟨hj0, hu⟩ | ⟨hj1, hu⟩ | ⟨hj2, hu⟩
            · rw [hu] at hs'
              refine Or.inr ⟨hdl, Or.inl ⟨hj0, ?_, ?_⟩⟩
              · rw [← hs']
                subst hj0
                rw [hdl]
              · rw [← hs']
                subst hj0
                exact heqt
            · rw [hu] at hs'
              refine Or.inr ⟨hdl, Or.inr (Or.inl ⟨hj1, ?_, ?_⟩)⟩
              · rw [← hs']
                show removeChunkAt (s.nodes.set j ((s.nodes.getD j []).dropLast)) 1 =
                  removeChunkAt s.nodes 1
                subst hj1
                exact removeChunkAt_set_self _ _ _
              · rw [← hs']
            · rw [hu] at hs'
              refine Or.inr ⟨hdl, Or.inr (Or.inr ⟨hj2, ?_, ?_⟩)⟩
              · rw [← hs']
                exact removeChunkAt_set_self _ _ _
              · rw [← hs']
          · have hdl : (s.nodes.getD j []).dropLast ≠ [] := by
              intro hc
              rw [hc] at hemp
              simp at hemp
            rw [if_neg hemp] at hs'
            refine Or.inl ⟨hdl, ?_, ?_⟩
            · rw [← hs']
            · rw [← hs']
              exact heqt
    · exact Except.noConfusion h
  · -- dangling
    exact Except.noConfusion h
  · -- (None, None)
    rename_i heqn heqt
    simp only [Except.ok.injEq, Prod.mk.injEq] at h
    obtain ⟨hv, hs'⟩ := h
    subst hv
    subst hs'
    exact ⟨rfl, Or.inl ⟨heqt, Or.inl heqn, rfl, rfl⟩⟩

theorem vecInsert_some_facts {l : List α} {i : Nat} {x : α} {l' : List α}
    (h : vecInsert l i x = some l') :
    l'.length = l.length + 1 ∧ i ≤ l.length := by
  unfold vecInsert at h
  split at h
  · rename_i hle
    simp only [Option.some.injEq] at h
    subst h
    constructor
    · simp only [List.length_append, List.length_take, List.length_cons,
        List.length_drop]
      omega
    · exact hle
  · exact Option.noConfusion h

theorem vecInsert_at_end (l : List α) (x : α) :
    vecInsert l l.length x = some (l ++ [x]) := by
  unfold vecInsert
  rw [if_pos (le_refl _)]
  simp

theorem vecRemove_some_facts {l : List α} {i : Nat} {v : α} {l' : List α}
    (h : vecRemove l i = some (v, l')) :
    l'.length + 1 = l.length ∧ i < l.length ∧
      l' = l.take i ++ l.drop (i + 1) := by
  unfold vecRemove at h
  split at h
  · rename_i a heq
    have hi : i < l.length := List.get?_eq_some.mp heq |>.choose
    simp only [Option.some.injEq, Prod.mk.injEq] at h
    obtain ⟨hv, hl'⟩ := h
    subst hl'
    refine ⟨?_, hi, rfl⟩
    simp only [List.length_append, List.length_take, List.length_drop]
    omega
  · exact Option.noConfusion h

/-- Complete case analysis of a successful `insert`. -/
theorem insert_ok_cases {s s' : ULL α} {idx : Nat} {x : α}
    (h : s.insert idx x = .ok s') :
    s'.cap = s.cap ∧ s'.len = s.len + 1 ∧ idx ≤ s.len ∧
    ((s.findNode idx = Option.none ∧ idx = 0 ∧ s'.nodes = [[x]] ∧
        s'.tail = s.tail) ∨
     (∃ j start node',
        s.findNode idx = some (j, start) ∧
        (s.nodes.getD j []).length < s.cap ∧
        vecInsert (s.nodes.getD j []) (idx - start) x = some node' ∧
        node'.length = (s.nodes.getD j []).length + 1 ∧
        s'.nodes = s.nodes.take j ++ node' :: s.nodes.drop (j + 1) ∧
        s'.tail = s.tail) ∨
     (∃ j start A B,
        s.findNode idx = some (j, start) ∧
        s.cap ≤ (s.nodes.getD j []).length ∧
        A.length + B.length = (s.nodes.getD j []).length + 1 ∧
        (s.nodes.getD j []).length / 2 ≤ A.length ∧
        (s.nodes.getD j []).length - (s.nodes.getD j []).length / 2 ≤ B.length ∧
        s'.nodes = s.nodes.take j ++ A :: B :: s.nodes.drop (j + 1) ∧
        s'.tail = (if s.tail = .none then TailPtr.pos (j + 1)
                   else s.tail.afterInsertAt (j + 1)))) := by
  unfold ULL.insert at h
  split at h
  · exact Except.noConfusion h
  rename_i hguard
  have hidx : idx ≤ s.len := by omega
  split at h
  · -- found node
    rename_i p j start heqf
    have hdec := findNode_decomp heqf
    obtain ⟨hjlt, hstart, hle1, hle2, hpast⟩ := hdec
    simp only [] at h
    by_cases hfull : s.cap ≤ (s.nodes.getD j []).length
    · rw [if_pos hfull] at h
      by_cases hright :
          (splitChunk (s.nodes.getD j [])).1.length < idx - start
      · rw [if_pos hright] at h
        rcases heqv : vecInsert (splitChunk (s.nodes.getD j [])).2
            (idx - start - (splitChunk (s.nodes.getD j [])).1.length) x with
          _ | right'
        · rw [heqv] at h
          exact Except.noConfusion h
        · rw [heqv] at h
          simp only [Except.ok.injEq] at h
          subst h
          have hv := vecInsert_some_facts heqv
          refine ⟨rfl, rfl, hidx, Or.inr (Or.inr
            ⟨j, start, (splitChunk (s.nodes.getD j [])).1, right',
              heqf, hfull, ?_, ?_, ?_, ?_, rfl⟩)⟩
          · rw [splitChunk_length_left] at hv ⊢
            rw [hv.1, splitChunk_length_right]
            have := Nat.div_le_self (s.nodes.getD j []).length 2
            omega
          · rw [splitChunk_length_left]
          · rw [hv.1, splitChunk_length_right]
            omega
          · exact split_insert_shape hjlt _ _
      · rw [if_neg hright] at h
        rcases heqv : vecInsert (splitChunk (s.nodes.getD j [])).1
            (idx - start) x with _ | left'
        · rw [heqv] at h
          exact Except.noConfusion h
        · rw [heqv] at h
          simp only [Except.ok.injEq] at h
          subst h
          have hv := vecInsert_some_facts heqv
          refine ⟨rfl, rfl, hidx, Or.inr (Or.inr
            ⟨j, start, left', (splitChunk (s.nodes.getD j [])).2,
              heqf, hfull, ?_, ?_, ?_, ?_, rfl⟩)⟩
          · rw [hv.1, splitChunk_length_left, splitChunk_length_right]
            have := Nat.div_le_self (s.nodes.getD j []).length 2
            omega
          · rw [hv.1, splitChunk_length_left]
            omega
          · rw [splitChunk_length_right]
          · exact split_insert_shape hjlt _ _
    · rw [if_neg hfull] at h
      rcases heqv : vecInsert (s.nodes.getD j []) (idx - start) x with _ | node'
      · rw [heqv] at h
        exact Except.noConfusion h
      · rw [heqv] at h
        simp only [Except.ok.injEq] at h
        subst h
        have hv := vecInsert_some_facts heqv
        refine ⟨rfl, rfl, hidx, Or.inr (Or.inl
          ⟨j, start, node', heqf, by omega, heqv, hv.1, ?_, rfl⟩)⟩
        exact set_decomp hjlt _
  · -- no node: empty chain, create the first node
    rename_i heqf
    rcases heqv : vecInsert ([] : List α) idx x with _ | c
    · rw [heqv] at h
      exact Except.noConfusion h
    · rw [heqv] at h
      simp only [Except.ok.injEq] at h
      subst h
      have hv := vecInsert_some_facts heqv
      have hi0 : idx = 0 := by
        have := hv.2
        simpa using this
      have hc : c = [x] := by
        rw [hi0] at heqv
        unfold vecInsert at heqv
        simp at heqv
        exact heqv.symm
      subst hc
      exact ⟨rfl, rfl, hidx, Or.inl ⟨heqf, hi0, rfl, rfl⟩⟩

/-- Complete case analysis of a successful `remove`. -/
theorem remove_ok_cases {s s' : ULL α} {idx : Nat} {v : α}
    (h : s.remove idx = .ok (v, s')) :
    s'.cap = s.cap ∧ s'.len = s.len - 1 ∧ idx < s.len ∧
    ∃ j start node',
      s.findNode idx = some (j, start) ∧
      vecRemove (s.nodes.getD j []) (idx - start) = some (v, node') ∧
      node'.length + 1 = (s.nodes.getD j []).length ∧
      ((¬ node'.length < s.cap / 2 ∧
          s'.nodes = s.nodes.take j ++ node' :: s.nodes.drop (j + 1) ∧
          s'.tail = s.tail) ∨
       (node'.length < s.cap / 2 ∧ ¬ j + 1 < s.nodes.length ∧
          s'.nodes = s.nodes.take j ++ node' :: s.nodes.drop (j + 1) ∧
          s'.tail = s.tail) ∨
       (node'.length < s.cap / 2 ∧ j + 1 < s.nodes.length ∧
          s.cap ≤ node'.length + (s.nodes.getD (j + 1) []).length ∧
          (∃ A B, A.length = s.cap / 2 ∧
            A.length + B.length =
              node'.length + (s.nodes.getD (j + 1) []).length ∧
            s'.nodes = s.nodes.take j ++ A :: B :: s.nodes.drop (j + 2) ∧
            s'.tail = s.tail)) ∨
       (node'.length < s.cap / 2 ∧ j + 1 < s.nodes.length ∧
          node'.length + (s.nodes.getD (j + 1) []).length < s.cap ∧
          s'.nodes = s.nodes.take j ++
            (node' ++ s.nodes.getD (j + 1) []) :: s.nodes.drop (j + 2) ∧
          s'.tail = s.tail.afterRemoveAt (j + 1))) := by
  unfold ULL.remove at h
  split at h
  · exact Except.noConfusion h
  rename_i hguard
  have hidx : idx < s.len := by omega
  split at h
  · rename_i p j start heqf
    have hdec := findNode_decomp heqf
    obtain ⟨hjlt, hstart, hle1, hle2, hpast⟩ := hdec
    rcases heqr : vecRemove (s.nodes.getD j []) (idx - start) with _ | ⟨v', node'⟩
    · rw [heqr] at h
      exact Except.noConfusion h
    · rw [heqr] at h
      have hfacts := vecRemove_some_facts heqr
      unfold stealSome at h
      simp only [] at h
      rw [getD_set_self hjlt, List.length_set] at h
      by_cases hunder : node'.length < s.cap / 2
      · rw [if_pos hunder] at h
        by_cases hnext : j + 1 < s.nodes.length
        · rw [if_pos hnext, getD_set_ne (by omega : j ≠ j + 1)] at h
          by_cases hcomb :
              s.cap ≤ node'.length + (s.nodes.getD (j + 1) []).length
          · rw [if_pos hcomb] at h
            unfold vecSplitOff at h
            rw [if_pos (by omega)] at h
            simp only [Except.ok.injEq, Prod.mk.injEq] at h
            obtain ⟨hv, hs'⟩ := h
            subst hv
            subst hs'
            refine ⟨rfl, rfl, hidx, j, start, node', heqf, heqr, by omega,
              Or.inr (Or.inr (Or.inl ⟨hunder, hnext, hcomb,
                node' ++ (s.nodes.getD (j + 1) []).take
                    (s.cap / 2 - node'.length),
                (s.nodes.getD (j + 1) []).drop (s.cap / 2 - node'.length),
                ?_, ?_, ?_, rfl⟩))⟩
            · rw [List.length_append,
                length_take_of_le (by omega : s.cap / 2 - node'.length ≤
                  (s.nodes.getD (j + 1) []).length)]
              omega
            · simp only [List.length_append, List.length_take,
                List.length_drop]
              omega
            · rw [List.set_set, set_set_decomp hnext]
          · rw [if_neg hcomb] at h
            simp only [Except.ok.injEq, Prod.mk.injEq] at h
            obtain ⟨hv, hs'⟩ := h
            subst hv
            subst hs'
            refine ⟨rfl, rfl, hidx, j, start, node', heqf, heqr, by omega,
              Or.inr (Or.inr (Or.inr ⟨hunder, hnext, by omega, ?_, rfl⟩))⟩
            rw [List.set_set, set_removeChunkAt_decomp hnext]
        · rw [if_neg hnext] at h
          simp only [Except.ok.injEq, Prod.mk.injEq] at h
          obtain ⟨hv, hs'⟩ := h
          subst hv
          subst hs'
          refine ⟨rfl, rfl, hidx, j, start, node', heqf, heqr, by omega,
            Or.inr (Or.inl ⟨hunder, hnext, ?_, rfl⟩)⟩
          exact set_decomp hjlt _
      · rw [if_neg hunder] at h
        simp only [Except.ok.injEq, Prod.mk.injEq] at h
        obtain ⟨hv, hs'⟩ := h
        subst hv
        subst hs'
        refine ⟨rfl, rfl, hidx, j, start, node', heqf, heqr, by omega,
          Or.inl ⟨hunder, ?_, rfl⟩⟩
        exact set_decomp hjlt _
  · exact Except.noConfusion h

theorem take_append_self (A X : List β) : (A ++ X).take A.length = A := by
  induction A with
  | nil => rfl
  | cons a t ih => simpa using ih


theorem drop_two_at (pre : List β) (c : β) (post : List β) :
    (pre ++ c :: post).drop (pre.length + 2) = post.drop 1 := by
  induction pre with
  | nil => rfl
  | cons a t ih => simpa using ih

theorem drop_two_cons_at (pre : List β) (c d : β) (post : List β) :
    (pre ++ c :: d :: post).drop (pre.length + 2) = post := by
  induction pre with
  | nil => rfl
  | cons a t ih => simpa using ih

theorem take_append_of_length_eq {A X : List β} {j : Nat}
    (h : A.length = j) : (A ++ X).take j = A := by
  subst h
  exact take_append_self A X

theorem drop_two_of_length_eq {A : List β} {c : β} {post : List β} {j : Nat}
    (h : A.length = j) : (A ++ c :: post).drop (j + 2) = post.drop 1 := by
  subst h
  exact drop_two_at A c post

theorem drop_two_cons_of_length_eq {A : List β} {c d : β} {post : List β}
    {j : Nat} (h : A.length = j) : (A ++ c :: d :: post).drop (j + 2) = post := by
  subst h
  exact drop_two_cons_at A c d post

theorem drop_succ_of_length_eq {A : List β} {c : β} {post : List β} {j : Nat}
    (h : A.length = j) : (A ++ c :: post).drop (j + 1) = post := by
  subst h
  exact drop_succ_at A c post

/-! ### C10 -/

/-- C10: the claim holds.  Whenever `remove i` returns normally, the chunk
lists before the owning node `j` (found by `find_node`) and after its direct
successor are untouched: the result chain is the old one with only positions
`j` (and possibly `j + 1`) rewritten, the successor possibly absorbed (in
which case the suffix shifts down one position but is itself unchanged). -/
theorem C10_remove_touches_at_most_two_chunks {s : ULL α} {i : Nat} {v : α}
    {s' : ULL α} (h : s.remove i = .ok (v, s')) :
    ∃ j start, s.findNode i = some (j, start) ∧
      s'.nodes.take j = s.nodes.take j ∧
      (s'.nodes.drop (j + 2) = s.nodes.drop (j + 2) ∨
        s'.nodes.drop (j + 1) = s.nodes.drop (j + 2)) := by
  obtain ⟨-, -, -, j, start, node', heqf, heqr, hlen, hcases⟩ :=
    remove_ok_cases h
  have hjlt : j < s.nodes.length := (findNode_decomp heqf).1
  have htk : (s.nodes.take j).length = j := length_take_of_le hjlt.le
  have hdropdrop : ∀ l : List (List α), (l.drop (j + 1)).drop 1 = l.drop (j + 2) := by
    intro l
    rw [List.drop_drop]
  refine ⟨j, start, heqf, ?_, ?_⟩
  · rcases hcases with ⟨-, hsh, -⟩ | ⟨-, -, hsh, -⟩ |
      ⟨-, -, -, A, B, -, -, hsh, -⟩ | ⟨-, -, -, hsh, -⟩ <;>
      rw [hsh, take_append_of_length_eq htk]
  · rcases hcases with ⟨-, hsh, -⟩ | ⟨-, -, hsh, -⟩ |
      ⟨-, -, -, A, B, -, -, hsh, -⟩ | ⟨-, -, -, hsh, -⟩
    · left
      rw [hsh, drop_two_of_length_eq htk, hdropdrop]
    · left
      rw [hsh, drop_two_of_length_eq htk, hdropdrop]
    · left
      rw [hsh, drop_two_cons_of_length_eq htk]
    · right
      rw [hsh, drop_succ_of_length_eq htk]

/-- C10 witness: `remove 0` on the concrete list `S5` returns normally;
applying the frame theorem there. -/
theorem C10_remove_frame_witness :
    ∃ j start, S5.findNode 0 = some (j, start) ∧
      S5R.nodes.take j = S5.nodes.take j ∧
      (S5R.nodes.drop (j + 2) = S5.nodes.drop (j + 2) ∨
        S5R.nodes.drop (j + 1) = S5.nodes.drop (j + 2)) :=
  C10_remove_touches_at_most_two_chunks
    (show S5.remove 0 = Except.ok (1, S5R) from rfl)

/-! ### The chain is empty only in the fresh state (towards C6) -/

theorem push_emptyInv {s s' : ULL α} {x : α} (h : s.push x = .ok s') :
    emptyInv s' := by
  obtain ⟨-, -, hcases⟩ := push_ok_cases h
  intro hnil
  rcases hcases with ⟨-, -, hsh, -⟩ | ⟨j, -, -, hcases⟩
  · rw [hsh] at hnil
    exact absurd hnil (by simp)
  · rcases hcases with ⟨-, hsh, -⟩ | ⟨-, hsh, -⟩ <;>
    · rw [hsh] at hnil
      simp at hnil

theorem insert_emptyInv {s s' : ULL α} {idx : Nat} {x : α}
    (h : s.insert idx x = .ok s') : emptyInv s' := by
  obtain ⟨-, -, -, hcases⟩ := insert_ok_cases h
  intro hnil
  rcases hcases with ⟨-, -, hsh, -⟩ | ⟨j, start, node', -, -, -, -, hsh, -⟩ |
    ⟨j, start, A, B, -, -, -, -, -, hsh, -⟩ <;>
  · rw [hsh] at hnil
    simp at hnil

theorem pop_emptyInv {s s' : ULL α} {v : Option α} (hs : emptyInv s)
    (h : s.pop = .ok (v, s')) : emptyInv s' := by
  obtain ⟨-, hcases⟩ := pop_ok_cases h
  rcases hcases with ⟨-, -, -, hss⟩ | ⟨-, hne, -, -, -, -, hsh, -⟩ |
    ⟨j, -, hjlt, -, -, -, hcases⟩
  · rw [hss]
    exact hs
  · intro hnil
    rw [hsh] at hnil
    have hl := congrArg List.length hnil
    simp only [List.length_set, List.length_nil] at hl
    exact absurd (List.length_eq_zero.mp hl) hne
  · intro hnil
    rcases hcases with ⟨-, hsh, -⟩ | ⟨-, hcases⟩
    · rw [hsh] at hnil
      have hl := congrArg List.length hnil
      simp only [List.length_set, List.length_nil] at hl
      omega
    · rcases hcases with ⟨hj, hsh, -⟩ | ⟨hj, hsh, -⟩ | ⟨hj, hsh, -⟩
      · rw [hsh] at hnil
        have hl := congrArg List.length hnil
        simp only [List.length_set, List.length_nil] at hl
        omega
      · rw [hsh] at hnil
        have hl := congrArg List.length hnil
        rw [length_removeChunkAt (by omega)] at hl
        simp only [List.length_nil] at hl
        omega
      · rw [hsh] at hnil
        have hl := congrArg List.length hnil
        rw [length_removeChunkAt (by omega)] at hl
        simp only [List.length_nil] at hl
        omega

theorem remove_emptyInv {s s' : ULL α} {idx : Nat} {v : α}
    (h : s.remove idx = .ok (v, s')) : emptyInv s' := by
  obtain ⟨-, -, -, j, start, node', -, -, -, hcases⟩ := remove_ok_cases h
  intro hnil
  rcases hcases with ⟨-, hsh, -⟩ | ⟨-, -, hsh, -⟩ |
    ⟨-, -, -, A, B, -, -, hsh, -⟩ | ⟨-, -, -, hsh, -⟩ <;>
  · rw [hsh] at hnil
    simp at hnil

theorem runOp_emptyInv {s s' : ULL α} {op : Op α} (hs : emptyInv s)
    (h : runOp s op = .ok s') : emptyInv s' := by
  cases op with
  | push x => exact push_emptyInv h
  | insert i x => exact insert_emptyInv h
  | pop =>
    simp only [runOp] at h
    cases hp : s.pop with
    | error e =>
      rw [hp] at h
      exact Except.noConfusion h
    | ok p =>
      rw [hp] at h
      simp only [Except.map] at h
      simp only [Except.ok.injEq] at h
      subst h
      exact pop_emptyInv hs hp
  | remove i =>
    simp only [runOp] at h
    cases hp : s.remove i with
    | error e =>
      rw [hp] at h
      exact Except.noConfusion h
    | ok p =>
      rw [hp] at h
      simp only [Except.map] at h
      simp only [Except.ok.injEq] at h
      subst h
      exact remove_emptyInv hp
  | clear =>
    simp only [runOp] at h
    simp only [Except.ok.injEq] at h
    subst h
    intro _
    exact ⟨rfl, rfl⟩

theorem runOps_emptyInv {ops : List (Op α)} {s s' : ULL α} (hs : emptyInv s)
    (h : runOps s ops = .ok s') : emptyInv s' := by
  induction ops generalizing s with
  | nil =>
    unfold runOps at h
    simp only [Except.ok.injEq] at h
    subst h
    exact hs
  | cons op rest ih =>
    unfold runOps at h
    cases hop : runOp s op with
    | error e =>
      rw [hop] at h
      exact Except.noConfusion h
    | ok s1 =>
      rw [hop] at h
      simp only [Except.bind] at h
      exact ih (runOp_emptyInv hs hop) h

/-! ### C6 -/

/-- C6 (amended): after any successfully completed operation sequence from a
fresh list, `head` and `tail` are both `None` only together with
`length = 0` — the chain is empty exactly in the fresh/cleared state.  The
converse direction of the original claim is false, see
`C6_empty_by_pop_keeps_head`: emptying by `pop` leaves `head` set. -/
theorem C6_both_none_only_when_empty (cap : Nat) (ops : List (Op α))
    (s : ULL α) (h : runOps (ULL.withCapacity cap) ops = .ok s) :
    s.nodes = [] → s.tail = .none ∧ s.len = 0 :=
  runOps_emptyInv (fun _ => ⟨rfl, rfl⟩) h

/-- C6 witness: the amended claim applied to the concrete run
`push 1; pop; clear` on a fresh capacity-8 list, which ends in the cleared
state with an empty chain — there `tail` is unset and `length` is zero. -/
theorem C6_both_none_only_when_empty_witness :
    (ULL.withCapacity 8 : ULL Nat).tail = .none ∧
      (ULL.withCapacity 8 : ULL Nat).len = 0 :=
  C6_both_none_only_when_empty 8 [Op.push 1, Op.pop, Op.clear]
    (ULL.withCapacity 8) rfl rfl

/-! ### Preservation of `Inv` by every operation (capacity ≥ 2) -/

theorem ne_nil_of_one_le_length {l : List β} (h : 1 ≤ l.length) : l ≠ [] := by
  intro hc
  rw [hc] at h
  simp at h

theorem push_Inv {s s' : ULL α} {x : α} (hs : Inv s) (h : s.push x = .ok s') :
    Inv s' := by
  obtain ⟨hcap, hlen, hne, htail⟩ := hs
  obtain ⟨hc, hl, hcases⟩ := push_ok_cases h
  rcases hcases with ⟨hnil, -, hsh, hta⟩ | ⟨j, hjlt, -, hcases⟩
  · refine ⟨by omega, ?_, ?_, ?_⟩
    · unfold sumChunks at hlen ⊢
      rw [hl, hsh, hlen, hnil]
      simp [sumL]
    · intro c hc'
      rw [hsh] at hc'
      simp at hc'
    · intro k hk
      rw [hta] at hk
      exact TailPtr.noConfusion hk
  · rcases hcases with ⟨hfull, hsh, hta⟩ | ⟨hfull, hsh, hta⟩
    · have hnode2 : 2 ≤ (s.nodes.getD j []).length := by omega
      have hA := splitChunk_length_left (s.nodes.getD j [])
      have hB := splitChunk_length_right (s.nodes.getD j [])
      have hdle := Nat.div_le_self (s.nodes.getD j []).length 2
      refine ⟨by omega, ?_, ?_, ?_⟩
      · unfold sumChunks at hlen ⊢
        rw [hl, hlen, hsh]
        have hst := sumL_shape_two hjlt (splitChunk (s.nodes.getD j [])).1
          ((splitChunk (s.nodes.getD j [])).2 ++ [x])
        rw [List.length_append, List.length_cons, List.length_nil] at hst
        omega
      · intro c hc'
        rw [hsh] at hc'
        exact nonHeadNE_shape_two hne (by omega)
          (fun _ => splitChunk_left_ne_nil hnode2) (by simp) c hc'
      · intro k hk
        rw [hta] at hk
        injection hk with hk'
        subst hk'
        refine ⟨by omega, ?_⟩
        rw [hsh, length_shape_two hjlt]
        omega
    · refine ⟨by omega, ?_, ?_, ?_⟩
      · unfold sumChunks at hlen ⊢
        rw [hl, hlen, hsh]
        have hst := sumL_shape_one hjlt ((s.nodes.getD j []) ++ [x])
        rw [List.length_append, List.length_cons, List.length_nil] at hst
        omega
      · intro c hc'
        rw [hsh] at hc'
        exact nonHeadNE_shape_one hne (by omega) (fun _ => by simp) c hc'
      · intro k hk
        rw [hta] at hk
        obtain ⟨hk1, hk2⟩ := htail k hk
        refine ⟨hk1, ?_⟩
        rw [hsh, length_shape_one hjlt]
        exact hk2

theorem insert_Inv {s s' : ULL α} {idx : Nat} {x : α} (hs : Inv s)
    (h : s.insert idx x = .ok s') : Inv s' := by
  obtain ⟨hcap, hlen, hne, htail⟩ := hs
  obtain ⟨hc, hl, hidx, hcases⟩ := insert_ok_cases h
  rcases hcases with ⟨heqf, hi0, hsh, hta⟩ |
    ⟨j, start, node', heqf, hfull, heqv, hlnode, hsh, hta⟩ |
    ⟨j, start, A, B, heqf, hfull, hAB, hAge, hBge, hsh, hta⟩
  · -- first node on an empty chain
    have hnil : s.nodes = [] := by
      by_contra hne'
      have hiss : (s.findNode idx).isSome := findNode_isSome hne' (by
        unfold sumChunks at hlen ⊢
        omega)
      rw [heqf] at hiss
      simp at hiss
    refine ⟨by omega, ?_, ?_, ?_⟩
    · unfold sumChunks at hlen ⊢
      rw [hl, hlen, hsh, hnil]
      simp [sumL]
    · intro c hc'
      rw [hsh] at hc'
      simp at hc'
    · intro k hk
      rw [hta] at hk
      obtain ⟨hk1, hk2⟩ := htail k hk
      rw [hnil] at hk2
      simp at hk2
  · -- plain insert into a non-full node
    have hjlt : j < s.nodes.length := (findNode_decomp heqf).1
    refine ⟨by omega, ?_, ?_, ?_⟩
    · unfold sumChunks at hlen ⊢
      rw [hl, hlen, hsh]
      have hst := sumL_shape_one hjlt node'
      omega
    · intro c hc'
      rw [hsh] at hc'
      refine nonHeadNE_shape_one hne (by omega) (fun _ => ?_) c hc'
      exact ne_nil_of_one_le_length (by omega)
    · intro k hk
      rw [hta] at hk
      obtain ⟨hk1, hk2⟩ := htail k hk
      refine ⟨hk1, ?_⟩
      rw [hsh, length_shape_one hjlt]
      exact hk2
  · -- split_and_insert on a full node
    have hjlt : j < s.nodes.length := (findNode_decomp heqf).1
    have hnode2 : 2 ≤ (s.nodes.getD j []).length := by omega
    have hdle := Nat.div_le_self (s.nodes.getD j []).length 2
    refine ⟨by omega, ?_, ?_, ?_⟩
    · unfold sumChunks at hlen ⊢
      rw [hl, hlen, hsh]
      have hst := sumL_shape_two hjlt A B
      omega
    · intro c hc'
      rw [hsh] at hc'
      refine nonHeadNE_shape_two hne (by omega) (fun _ => ?_) ?_ c hc'
      · exact ne_nil_of_one_le_length (by omega)
      · exact ne_nil_of_one_le_length (by omega)
    · intro k hk
      rw [hta] at hk
      by_cases hnone : s.tail = .none
      · rw [if_pos hnone] at hk
        injection hk with hk'
        subst hk'
        refine ⟨by omega, ?_⟩
        rw [hsh, length_shape_two hjlt]
        omega
      · rw [if_neg hnone] at hk
        cases ht : s.tail with
        | none => exact absurd ht hnone
        | dangling =>
          rw [ht] at hk
          exact TailPtr.noConfusion hk
        | pos m =>
          obtain ⟨hm1, hm2⟩ := htail m ht
          rw [ht] at hk
          simp only [TailPtr.afterInsertAt] at hk
          by_cases hjm : j + 1 ≤ m
          · rw [if_pos hjm] at hk
            injection hk with hk'
            subst hk'
            refine ⟨by omega, ?_⟩
            rw [hsh, length_shape_two hjlt]
            omega
          · rw [if_neg hjm] at hk
            injection hk with hk'
            subst hk'
            refine ⟨by omega, ?_⟩
            rw [hsh, length_shape_two hjlt]
            omega

theorem pop_Inv {s s' : ULL α} {v : Option α} (hs : Inv s)
    (h : s.pop = .ok (v, s')) : Inv s' := by
  obtain ⟨hcap, hlen, hne, htail⟩ := hs
  obtain ⟨hc, hcases⟩ := pop_ok_cases h
  rcases hcases with ⟨-, -, -, hss⟩ | ⟨hta, hne0, hf, h1, -, hl, hsh, hta'⟩ |
    ⟨j, hta, hjlt, h1, -, hl, hcases⟩
  · rw [hss]
    exact ⟨hcap, hlen, hne, htail⟩
  · -- pop from head node (tail unset)
    have h0 : 0 < s.nodes.length := by
      cases hx : s.nodes with
      | nil => exact absurd hx hne0
      | cons a t => simp [hx]
    refine ⟨by omega, ?_, ?_, ?_⟩
    · unfold sumChunks at hlen ⊢
      rw [hl, hlen, hsh, set_decomp h0]
      have hst := sumL_shape_one h0 (s.nodes.getD 0 []).dropLast
      rw [List.length_dropLast] at hst
      have hfp : 1 ≤ (s.nodes.getD 0 []).length := by
        cases hx : s.nodes.getD 0 [] with
        | nil => exact absurd hx hf
        | cons a t => simp [hx]
      have hsum0 : (s.nodes.getD 0 []).length ≤ sumL s.nodes := by
        have := sumL_decomp h0
        omega
      omega
    · intro c hc'
      rw [hsh, set_decomp h0] at hc'
      exact nonHeadNE_shape_one hne (by omega) (fun hj => by omega) c hc'
    · intro k hk
      rw [hta'] at hk
      exact TailPtr.noConfusion hk
  · -- pop through the tail pointer
    obtain ⟨hj1, -⟩ := htail j hta
    have hnodej : s.nodes.getD j [] ≠ [] :=
      hne _ (getD_mem_tail hj1 hjlt [])
    have hjp : 1 ≤ (s.nodes.getD j []).length := by
      cases hx : s.nodes.getD j [] with
      | nil => exact absurd hx hnodej
      | cons a t => simp [hx]
    have hsumj : (s.nodes.getD j []).length ≤ sumL s.nodes := by
      have := sumL_decomp hjlt
      omega
    rcases hcases with ⟨hdl, hsh, hta'⟩ | ⟨hdl, hcases⟩
    · -- tail chunk still nonempty
      refine ⟨by omega, ?_, ?_, ?_⟩
      · unfold sumChunks at hlen ⊢
        rw [hl, hlen, hsh, set_decomp hjlt]
        have hst := sumL_shape_one hjlt (s.nodes.getD j []).dropLast
        rw [List.length_dropLast] at hst
        omega
      · intro c hc'
        rw [hsh, set_decomp hjlt] at hc'
        exact nonHeadNE_shape_one hne (by omega) (fun _ => hdl) c hc'
      · intro k hk
        rw [hta'] at hk
        injection hk with hk'
        subst hk'
        refine ⟨hj1, ?_⟩
        rw [hsh, List.length_set]
        exact hjlt
    · -- tail chunk emptied: the node is unlinked
      have hlen1 : (s.nodes.getD j []).length = 1 := by
        have hdll := List.length_dropLast (s.nodes.getD j [])
        rw [hdl] at hdll
        simp only [List.length_nil] at hdll
        omega
      rcases hcases with ⟨hj0, -, -⟩ | ⟨hj, hsh, hta'⟩ | ⟨hj, hsh, hta'⟩
      · omega
      · refine ⟨by omega, ?_, ?_, ?_⟩
        · unfold sumChunks at hlen ⊢
          rw [hl, hlen, hsh]
          rw [hj] at hlen1
          have hst := sumL_removeChunkAt
            (show (1 : Nat) < s.nodes.length from by omega)
          omega
        · intro c hc'
          rw [hsh] at hc'
          exact nonHeadNE_removeChunkAt hne (by omega) c hc'
        · intro k hk
          rw [hta'] at hk
          exact TailPtr.noConfusion hk
      · refine ⟨by omega, ?_, ?_, ?_⟩
        · unfold sumChunks at hlen ⊢
          rw [hl, hlen, hsh]
          have hst := sumL_removeChunkAt hjlt
          omega
        · intro c hc'
          rw [hsh] at hc'
          exact nonHeadNE_removeChunkAt hne (by omega) c hc'
        · intro k hk
          rw [hta'] at hk
          injection hk with hk'
          subst hk'
          refine ⟨by omega, ?_⟩
          rw [hsh, length_removeChunkAt (by omega)]
          omega

theorem remove_Inv {s s' : ULL α} {idx : Nat} {vx : α} (hs : Inv s)
    (h : s.remove idx = .ok (vx, s')) : Inv s' := by
  obtain ⟨hcap, hlen, hne, htail⟩ := hs
  obtain ⟨hc, hl, hidx, j, start, node', heqf, heqr, hlnode, hcases⟩ :=
    remove_ok_cases h
  obtain ⟨hjlt, hstart, hle1, hle2, hpast⟩ := findNode_decomp heqf
  have hlocal : idx - start < (s.nodes.getD j []).length :=
    (vecRemove_some_facts heqr).2.1
  have hnode1 : 1 ≤ j → 1 ≤ node'.length := by
    intro hj1
    have := hpast hj1
    omega
  rcases hcases with ⟨hunder, hsh, hta⟩ | ⟨hunder, hnext, hsh, hta⟩ |
    ⟨hunder, hnext, hcomb, A, B, hAlen, hABlen, hsh, hta⟩ |
    ⟨hunder, hnext, hcomb, hsh, hta⟩
  · -- no rebalance (chunk still at least half full)
    refine ⟨by omega, ?_, ?_, ?_⟩
    · unfold sumChunks at hlen ⊢
      rw [hl, hlen, hsh]
      have hst := sumL_shape_one hjlt node'
      omega
    · intro c hc'
      rw [hsh] at hc'
      refine nonHeadNE_shape_one hne (by omega) (fun hj1 => ?_) c hc'
      exact ne_nil_of_one_le_length (by
        have := hnode1 hj1
        omega)
    · intro k hk
      rw [hta] at hk
      obtain ⟨hk1, hk2⟩ := htail k hk
      refine ⟨hk1, ?_⟩
      rw [hsh, length_shape_one hjlt]
      exact hk2
  · -- under-full but no successor to steal from
    refine ⟨by omega, ?_, ?_, ?_⟩
    · unfold sumChunks at hlen ⊢
      rw [hl, hlen, hsh]
      have hst := sumL_shape_one hjlt node'
      omega
    · intro c hc'
      rw [hsh] at hc'
      refine nonHeadNE_shape_one hne (by omega) (fun hj1 => ?_) c hc'
      exact ne_nil_of_one_le_length (by
        have := hnode1 hj1
        omega)
    · intro k hk
      rw [hta] at hk
      obtain ⟨hk1, hk2⟩ := htail k hk
      refine ⟨hk1, ?_⟩
      rw [hsh, length_shape_one hjlt]
      exact hk2
  · -- steal from the successor
    refine ⟨by omega, ?_, ?_, ?_⟩
    · unfold sumChunks at hlen ⊢
      rw [hl, hlen, hsh]
      have hst := sumL_shape_two_far hnext A B
      omega
    · intro c hc'
      rw [hsh] at hc'
      refine nonHeadNE_shape_two hne (by omega) (fun _ => ?_) ?_ c hc'
      · exact ne_nil_of_one_le_length (by omega)
      · exact ne_nil_of_one_le_length (by omega)
    · intro k hk
      rw [hta] at hk
      obtain ⟨hk1, hk2⟩ := htail k hk
      refine ⟨hk1, ?_⟩
      rw [hsh, length_shape_two_far hnext]
      exact hk2
  · -- merge with the successor and unlink it
    have hnextne : s.nodes.getD (j + 1) [] ≠ [] :=
      hne _ (getD_mem_tail (by omega) hnext [])
    refine ⟨by omega, ?_, ?_, ?_⟩
    · unfold sumChunks at hlen ⊢
      rw [hl, hlen, hsh]
      have hst := sumL_shape_one_far hnext (node' ++ s.nodes.getD (j + 1) [])
      rw [List.length_append] at hst
      omega
    · intro c hc'
      rw [hsh] at hc'
      refine nonHeadNE_shape_one hne (by omega) (fun _ => ?_) c hc'
      intro hcnil
      exact hnextne (List.append_eq_nil.mp hcnil).2
    · intro k hk
      rw [hta] at hk
      cases ht : s.tail with
      | none =>
        rw [ht] at hk
        exact TailPtr.noConfusion hk
      | dangling =>
        rw [ht] at hk
        exact TailPtr.noConfusion hk
      | pos m =>
        obtain ⟨hm1, hm2⟩ := htail m ht
        rw [ht] at hk
        simp only [TailPtr.afterRemoveAt] at hk
        by_cases hmj : m = j + 1
        · rw [if_pos hmj] at hk
          exact TailPtr.noConfusion hk
        · rw [if_neg hmj] at hk
          by_cases hlt : j + 1 < m
          · rw [if_pos hlt] at hk
            injection hk with hk'
            subst hk'
            refine ⟨by omega, ?_⟩
            rw [hsh, length_shape_one_far hnext]
            omega
          · rw [if_neg hlt] at hk
            injection hk with hk'
            subst hk'
            refine ⟨hm1, ?_⟩
            rw [hsh, length_shape_one_far hnext]
            omega

theorem runOp_Inv {s s' : ULL α} {op : Op α} (hs : Inv s)
    (h : runOp s op = .ok s') : Inv s' := by
  cases op with
  | push x => exact push_Inv hs h
  | insert i x => exact insert_Inv hs h
  | pop =>
    simp only [runOp] at h
    cases hp : s.pop with
    | error e =>
      rw [hp] at h
      exact Except.noConfusion h
    | ok p =>
      rw [hp] at h
      simp only [Except.map, Except.ok.injEq] at h
      subst h
      exact pop_Inv hs hp
  | remove i =>
    simp only [runOp] at h
    cases hp : s.remove i with
    | error e =>
      rw [hp] at h
      exact Except.noConfusion h
    | ok p =>
      rw [hp] at h
      simp only [Except.map, Except.ok.injEq] at h
      subst h
      exact remove_Inv hs hp
  | clear =>
    simp only [runOp, Except.ok.injEq] at h
    subst h
    obtain ⟨hcap, -, -, -⟩ := hs
    exact ⟨hcap, rfl, by intro c hc; simp [ULL.clear, ULL.withCapacity] at hc,
      fun k hk => TailPtr.noConfusion hk⟩

theorem runOps_Inv {ops : List (Op α)} {s s' : ULL α} (hs : Inv s)
    (h : runOps s ops = .ok s') : Inv s' := by
  induction ops generalizing s with
  | nil =>
    unfold runOps at h
    simp only [Except.ok.injEq] at h
    subst h
    exact hs
  | cons op rest ih =>
    unfold runOps at h
    cases hop : runOp s op with
    | error e =>
      rw [hop] at h
      exact Except.noConfusion h
    | ok s1 =>
      rw [hop] at h
      simp only [Except.bind] at h
      exact ih (runOp_Inv hs hop) h

/-! ### C5 (amended part) -/

/-- C5 (amended): for a capacity of at least 2, after every successfully
completed sequence of push/insert/pop/remove/clear operations the `len`
field equals the sum of all chunk lengths.  The traversal-count half of the
original claim fails (`C5_traversal_count_differs_from_len`): an empty head
chunk — reachable, since `insert` can leave the `tail` pointer behind and
subsequent pops then drain the head — stops the iterator at once. -/
theorem C5_len_eq_chunk_sum (cap : Nat) (hcap : 2 ≤ cap) (ops : List (Op α))
    (s : ULL α) (h : runOps (ULL.withCapacity cap) ops = .ok s) :
    s.len = sumChunks s :=
  (runOps_Inv ⟨hcap, rfl, fun c hc => absurd hc (by simp [ULL.withCapacity]),
    fun k hk => TailPtr.noConfusion hk⟩ h).2.1

/-- C5 witness: the amended claim applied at a concrete run — pushing 1, 2, 3
into a fresh capacity-2 list yields chunks [1], [2, 3] with length 3. -/
theorem C5_len_eq_chunk_sum_witness :
    (⟨2, 3, [[1], [2, 3]], .pos 1⟩ : ULL Nat).len
      = sumChunks (⟨2, 3, [[1], [2, 3]], .pos 1⟩ : ULL Nat) :=
  C5_len_eq_chunk_sum 2 (by decide) [Op.push 1, .push 2, .push 3]
    ⟨2, 3, [[1], [2, 3]], .pos 1⟩ (by rfl)

/-! ### C7 (amended part): appending via insert-at-length vs push -/

theorem flatten_split_snoc (P : List (List α)) (g : List α) (x : α) :
    (P ++ [(splitChunk g).1, (splitChunk g).2 ++ [x]]).flatten =
      (P ++ [g]).flatten ++ [x] := by
  simp only [List.flatten_append, List.flatten_cons, List.flatten_nil,
    List.append_nil, List.append_assoc]
  rw [← List.append_assoc ((splitChunk g).1), splitChunk_append]

theorem flatten_app_snoc (P : List (List α)) (g : List α) (x : α) :
    (P ++ [g ++ [x]]).flatten = (P ++ [g]).flatten ++ [x] := by
  simp

theorem pushAt_cap (s : ULL α) (j : Nat) (x : α) :
    (s.pushAt j x).cap = s.cap := by
  simp only [ULL.pushAt]
  split <;> rfl

/-- Pushing at the genuinely last chain position appends the element at the
end of the logical sequence, whether or not the node is full. -/
theorem pushAt_last_elems {s : ULL α} {j : Nat} (x : α)
    (hjlt : j < s.nodes.length) (hdrop : s.nodes.drop (j + 1) = []) :
    (s.pushAt j x).elems = s.elems ++ [x] := by
  simp only [ULL.pushAt]
  by_cases hfull : s.cap ≤ (s.nodes.getD j []).length
  · rw [if_pos hfull]
    simp only [ULL.elems]
    rw [split_insert_shape hjlt, hdrop]
    conv_rhs => rw [decomp hjlt ([] : List α), hdrop]
    exact flatten_split_snoc _ _ _
  · rw [if_neg hfull]
    simp only [ULL.elems]
    rw [set_decomp hjlt, hdrop]
    conv_rhs => rw [decomp hjlt ([] : List α), hdrop]
    exact flatten_app_snoc _ _ _

/-- When the `tail` pointer refers to the genuinely last node (or is unset),
`push` succeeds and appends the element at the end of the logical
sequence. -/
theorem push_snoc {s : ULL α} (x : α) (ht : tailIsLast s) :
    ∃ s2, s.push x = .ok s2 ∧ s2.cap = s.cap ∧ s2.len = s.len + 1 ∧
      s2.elems = s.elems ++ [x] := by
  obtain ⟨ht1, ht2⟩ := ht
  rcases heqt : s.tail with _ | j | _
  · rcases heqn : s.nodes with _ | ⟨c, rest⟩
    · exact ⟨{ s with nodes := [[x]], len := s.len + 1 },
        by simp only [ULL.push, heqt, heqn], rfl, rfl,
        by simp [ULL.elems, heqn]⟩
    · have h0 : 0 < s.nodes.length := by rw [heqn]; simp
      have hlen1 : s.nodes.length ≤ 1 := by
        by_contra hgt
        rw [ht2 (by omega)] at heqt
        exact TailPtr.noConfusion heqt
      have hdrop : s.nodes.drop (0 + 1) = [] := List.drop_eq_nil_of_le (by omega)
      refine ⟨{ s.pushAt 0 x with len := s.len + 1 }, ?_, ?_, rfl, ?_⟩
      · simp only [ULL.push, heqt, heqn]
      · show (s.pushAt 0 x).cap = s.cap
        exact pushAt_cap s 0 x
      · show (s.pushAt 0 x).elems = s.elems ++ [x]
        exact pushAt_last_elems x h0 hdrop
  · have hlen2 : 2 ≤ s.nodes.length := by
      by_contra hlt
      rw [ht1 (by omega)] at heqt
      exact TailPtr.noConfusion heqt
    have hj : j = s.nodes.length - 1 := by
      rw [ht2 hlen2] at heqt
      injection heqt with h
      omega
    have hjlt : j < s.nodes.length := by omega
    have hdrop : s.nodes.drop (j + 1) = [] := List.drop_eq_nil_of_le (by omega)
    refine ⟨{ s.pushAt j x with len := s.len + 1 }, ?_, ?_, rfl, ?_⟩
    · simp only [ULL.push, heqt]
      rw [if_pos hjlt]
    · show (s.pushAt j x).cap = s.cap
      exact pushAt_cap s j x
    · show (s.pushAt j x).elems = s.elems ++ [x]
      exact pushAt_last_elems x hjlt hdrop
  · exfalso
    rcases Nat.lt_or_ge s.nodes.length 2 with h | h
    · rw [ht1 (by omega)] at heqt
      exact TailPtr.noConfusion heqt
    · rw [ht2 h] at heqt
      exact TailPtr.noConfusion heqt

/-- When `length` equals the sum of the chunk lengths and every non-head
chunk is nonempty, `insert` at index `length` succeeds and appends the
element at the end of the logical sequence (`find_node` resolves the index
to the last node thanks to the inclusive upper bound). -/
theorem insert_at_end_ok {s : ULL α} (x : α) (hlen : s.len = sumChunks s)
    (hnh : nonHeadNE s) :
    ∃ s1, s.insert s.len x = .ok s1 ∧ s1.cap = s.cap ∧
      s1.len = s.len + 1 ∧ s1.elems = s.elems ++ [x] := by
  rcases List.eq_nil_or_concat s.nodes with hnil | ⟨P, g, hPg⟩
  · have hl0 : s.len = 0 := by rw [hlen, sumChunks, hnil, sumL_nil]
    refine ⟨{ s with nodes := [[x]], len := s.len + 1 }, ?_, rfl, rfl, ?_⟩
    · simp [ULL.insert, ULL.findNode, hnil, findNodeAux, vecInsert, hl0]
    · simp [ULL.elems, hnil]
  · rw [List.concat_eq_append] at hPg
    have hlen2 : sumChunks s = sumL P + g.length := by
      rw [sumChunks, hPg, sumL_append, sumL_cons, sumL_nil, Nat.add_zero]
    by_cases hg : g = []
    · have hP : P = [] := by
        by_contra hPne
        obtain ⟨p0, Pr, hPr⟩ := List.exists_cons_of_ne_nil hPne
        refine hnh g ?_ hg
        rw [hPg, hPr]
        simp
      have hPg2 : s.nodes = [[]] := by rw [hPg, hP, hg]; rfl
      have hl0 : s.len = 0 := by
        rw [hlen, hlen2, hP, hg]
        rfl
      by_cases hcap : s.cap = 0
      · refine ⟨{ s with
            nodes := [[x], []],
            tail := if s.tail = .none then .pos 1 else s.tail.afterInsertAt 1,
            len := s.len + 1 }, ?_, rfl, rfl, ?_⟩
        · simp [ULL.insert, ULL.findNode, hPg2, hcap, findNodeAux, vecInsert,
            splitChunk, insertChunkAt, hl0]
        · simp [ULL.elems, hPg2]
      · refine ⟨{ s with nodes := [[x]], len := s.len + 1 }, ?_, rfl, rfl, ?_⟩
        · simp [ULL.insert, ULL.findNode, hPg2, findNodeAux, vecInsert,
            Nat.le_zero, hcap, hl0]
        · simp [ULL.elems, hPg2]
    · have hlen3 : s.len = sumL P + g.length := by rw [hlen, hlen2]
      have hfind : s.findNode s.len = some (P.length, sumL P) := by
        rw [ULL.findNode, hPg]
        have h := @findNodeAux_last _ P g hg 0 0
        rw [show s.len = 0 + sumL P + g.length from by omega]
        simpa using h
      have hPlt : P.length < s.nodes.length := by rw [hPg]; simp
      have hgd : s.nodes.getD P.length [] = g := by
        rw [hPg]
        exact getD_at P g [] []
      have htake : s.nodes.take P.length = P := by
        rw [hPg]
        exact take_at P g []
      have hdropP : s.nodes.drop (P.length + 1) = [] := by
        rw [hPg]
        exact drop_succ_at P g []
      have hn1 : 1 ≤ g.length := List.length_pos.mpr hg
      by_cases hfull : s.cap ≤ g.length
      · refine ⟨{ s with
            nodes := P ++ [(splitChunk g).1, (splitChunk g).2 ++ [x]],
            tail := if s.tail = .none then .pos (P.length + 1)
                    else s.tail.afterInsertAt (P.length + 1),
            len := s.len + 1 }, ?_, rfl, rfl, ?_⟩
        · simp only [ULL.insert]
          rw [if_neg (lt_irrefl s.len)]
          simp only [hfind]
          rw [hgd, if_pos hfull]
          have hlt : (splitChunk g).1.length < s.len - sumL P := by
            rw [splitChunk_length_left]
            omega
          rw [if_pos hlt]
          have hloc : s.len - sumL P - (splitChunk g).1.length =
              (splitChunk g).2.length := by
            rw [splitChunk_length_left, splitChunk_length_right]
            omega
          rw [hloc]
          simp only [vecInsert_at_end]
          rw [split_insert_shape hPlt, htake, hdropP]
        · simp only [ULL.elems]
          rw [hPg]
          exact flatten_split_snoc P g x
      · refine ⟨{ s with nodes := P ++ [g ++ [x]], len := s.len + 1 },
          ?_, rfl, rfl, ?_⟩
        · simp only [ULL.insert]
          rw [if_neg (lt_irrefl s.len)]
          simp only [hfind]
          rw [hgd, if_neg hfull]
          have hloc : s.len - sumL P = g.length := by omega
          rw [hloc]
          simp only [vecInsert_at_end]
          rw [set_decomp hPlt, htake, hdropP]
        · simp only [ULL.elems]
          rw [hPg]
          exact flatten_app_snoc P g x

/-- C7 (amended): from any state of the push/pop fragment (length consistent
with the chunks, non-head chunks nonempty, `tail` on the genuinely last
node), `insert` at index `length` and `push` both succeed and agree on the
logical element sequence and on the length: each appends the element at the
end.  The resulting *containers* can nevertheless differ — `insert` of a
full tail node leaves the `tail` pointer behind (lib.rs:161), with
observably diverging later behavior (`C7_insert_at_len_differs_from_push`). -/
theorem C7_insert_at_len_agrees_with_push_on_elems {s : ULL α} (x : α)
    (hq : Qinv s) :
    ∃ s1 s2, s.insert s.len x = .ok s1 ∧ s.push x = .ok s2 ∧
      s1.elems = s.elems ++ [x] ∧ s2.elems = s.elems ++ [x] ∧
      s1.len = s.len + 1 ∧ s2.len = s.len + 1 := by
  obtain ⟨hlen, hnh, ht⟩ := hq
  obtain ⟨s1, h1, _, hl1, he1⟩ := insert_at_end_ok x hlen hnh
  obtain ⟨s2, h2, _, hl2, he2⟩ := push_snoc x ht
  exact ⟨s1, s2, h1, h2, he1, he2, hl1, hl2⟩

/-- C7 witness: the amended claim applied at the reachable 6-element
capacity-4 list with a full tail node (the very state from which the
original claim fails on containers). -/
theorem C7_insert_at_len_agrees_with_push_on_elems_witness :
    ∃ s1 s2,
      (⟨4, 6, [[1, 2], [3, 4, 5, 6]], .pos 1⟩ : ULL Nat).insert
        (⟨4, 6, [[1, 2], [3, 4, 5, 6]], .pos 1⟩ : ULL Nat).len 7 = .ok s1 ∧
      (⟨4, 6, [[1, 2], [3, 4, 5, 6]], .pos 1⟩ : ULL Nat).push 7 = .ok s2 ∧
      s1.elems = (⟨4, 6, [[1, 2], [3, 4, 5, 6]], .pos 1⟩ : ULL Nat).elems ++ [7] ∧
      s2.elems = (⟨4, 6, [[1, 2], [3, 4, 5, 6]], .pos 1⟩ : ULL Nat).elems ++ [7] ∧
      s1.len = (⟨4, 6, [[1, 2], [3, 4, 5, 6]], .pos 1⟩ : ULL Nat).len + 1 ∧
      s2.len = (⟨4, 6, [[1, 2], [3, 4, 5, 6]], .pos 1⟩ : ULL Nat).len + 1 :=
  C7_insert_at_len_agrees_with_push_on_elems 7
    ⟨rfl, fun c hc => by simp at hc; subst hc; simp,
     fun h => absurd h (by decide), fun h => rfl⟩

/-! ### C8: push-then-pop round trip -/

theorem sumL_eq_length_flatten (l : List (List α)) :
    sumL l = l.flatten.length := by
  induction l with
  | nil => rfl
  | cons c t ih => rw [sumL_cons, List.flatten_cons, List.length_append, ih]

/-- `push` preserves the pushing-phase invariant. -/
theorem push_Pinv {s s2 : ULL α} {x : α} (h : s.push x = .ok s2)
    (hp : Pinv s) : Pinv s2 := by
  obtain ⟨⟨hlen, hnh, ht1, ht2⟩, hone, htwo⟩ := hp
  obtain ⟨hcap, hlen2, hcases⟩ := push_ok_cases h
  rcases hcases with ⟨hnil, htn, hn2, ht3⟩ | ⟨j, hjlt, htj, hsh⟩
  · have hl0 : s.len = 0 := by rw [hlen, sumChunks, hnil, sumL_nil]
    refine ⟨⟨?_, ?_, ?_, ?_⟩, ?_, ?_⟩
    · rw [hlen2, hl0, sumChunks, hn2]
      simp [sumL]
    · intro c hc
      rw [hn2] at hc
      simp at hc
    · intro _
      rw [ht3]
    · intro hc
      rw [hn2] at hc
      simp at hc
    · intro _
      rw [hn2]
      simp
    · intro hc
      rw [hn2] at hc
      simp at hc
  · have hj : j + 1 = s.nodes.length := by
      rcases htj with htj | ⟨htn, hj0⟩
      · have hL2 : 2 ≤ s.nodes.length := by
          by_contra hc
          have h1 := ht1 (by omega)
          rw [htj] at h1
          exact TailPtr.noConfusion h1
        have h2 := ht2 hL2
        rw [htj] at h2
        injection h2 with he
        omega
      · subst hj0
        have hL1 : s.nodes.length ≤ 1 := by
          by_contra hc
          have h2 := ht2 (by omega)
          rw [htn] at h2
          exact TailPtr.noConfusion h2
        omega
    have hg2 : 1 ≤ j → 2 ≤ (s.nodes.getD j []).length := by
      intro h1
      have hL2 : 2 ≤ s.nodes.length := by omega
      have h2 := htwo hL2
      rw [show s.nodes.length - 1 = j from by omega] at h2
      exact h2
    have hglen : 1 ≤ (s.nodes.getD j []).length := by
      rcases Nat.eq_zero_or_pos j with hj0 | hj1
      · subst hj0
        have hL1 : s.nodes.length = 1 := by omega
        have h1 := hone hL1
        have hpos := List.length_pos.mpr h1
        omega
      · have := hg2 hj1
        omega
    have htl : (s.nodes.take j).length = j := length_take_of_le (by omega)
    rcases hsh with ⟨hfull, hn2, ht3⟩ | ⟨hnotfull, hn2, ht3⟩
    · -- full node: split, then push onto the new right node
      have hsum := sumL_shape_two hjlt (splitChunk (s.nodes.getD j [])).1
        ((splitChunk (s.nodes.getD j [])).2 ++ [x])
      rw [← hn2] at hsum
      simp only [List.length_append, List.length_cons, List.length_nil] at hsum
      rw [splitChunk_length_left, splitChunk_length_right] at hsum
      have hL2 : s2.nodes.length = s.nodes.length + 1 := by
        rw [hn2]
        exact length_shape_two hjlt _ _
      have hgd2 : s2.nodes.getD (s2.nodes.length - 1) [] =
          (splitChunk (s.nodes.getD j [])).2 ++ [x] := by
        rw [hn2, length_shape_two hjlt,
          show s.nodes.length + 1 - 1 = (s.nodes.take j).length + 1 from by omega]
        exact getD_succ_at _ _ _ _ _
      refine ⟨⟨?_, ?_, ?_, ?_⟩, ?_, ?_⟩
      · rw [hlen2, hlen, sumChunks, sumChunks]
        omega
      · intro c hc
        rw [hn2] at hc
        exact nonHeadNE_shape_two hnh (by omega)
          (fun h1 => splitChunk_left_ne_nil (hg2 h1)) (by simp) c hc
      · intro hc
        omega
      · intro _
        rw [ht3]
        rw [show s2.nodes.length - 1 = j + 1 from by omega]
      · intro hc
        omega
      · intro _
        rw [hgd2]
        rw [List.length_append, splitChunk_length_right]
        simp only [List.length_cons, List.length_nil]
        omega
    · -- non-full node: plain append
      have hsum := sumL_shape_one hjlt ((s.nodes.getD j []) ++ [x])
      rw [← hn2] at hsum
      simp only [List.length_append, List.length_cons, List.length_nil] at hsum
      have hL2 : s2.nodes.length = s.nodes.length := by
        rw [hn2]
        exact length_shape_one hjlt _
      have hgd2 : s2.nodes.getD (s2.nodes.length - 1) [] =
          (s.nodes.getD j []) ++ [x] := by
        rw [hn2, length_shape_one hjlt,
          show s.nodes.length - 1 = (s.nodes.take j).length from by omega]
        exact getD_at _ _ _ _
      refine ⟨⟨?_, ?_, ?_, ?_⟩, ?_, ?_⟩
      · rw [hlen2, hlen, sumChunks, sumChunks]
        omega
      · intro c hc
        rw [hn2] at hc
        exact nonHeadNE_shape_one hnh (by omega) (fun _ => by simp) c hc
      · intro hc
        rw [ht3]
        exact ht1 (by omega)
      · intro hc
        rw [ht3, ht2 (by omega)]
        rw [show s2.nodes.length - 1 = s.nodes.length - 1 from by omega]
      · intro hc
        rw [hn2, show j = 0 from by omega] at hgd2
        rw [hn2, show j = 0 from by omega]
        have h0 : s2.nodes.length - 1 = 0 := by omega
        rw [← show j = 0 from by omega] at hgd2
        simp only [List.take_zero, List.nil_append]
        simp
      · intro _
        rw [hgd2]
        simp only [List.length_append, List.length_cons, List.length_nil]
        omega

/-- One `push` step from a `Pinv` state: success, `Pinv` again, and the
element lands at the end. -/
theorem push_step_Pinv {s : ULL α} (x : α) (hp : Pinv s) :
    ∃ s2, s.push x = .ok s2 ∧ Pinv s2 ∧ s2.len = s.len + 1 ∧
      s2.elems = s.elems ++ [x] := by
  obtain ⟨s2, h, hc, hl, he⟩ := push_snoc x hp.1.2.2
  exact ⟨s2, h, push_Pinv h hp, hl, he⟩

/-- Pushing a whole list from a `Pinv` state. -/
theorem pushAll_Pinv : ∀ (es : List α) {s : ULL α}, Pinv s →
    ∃ s2, pushAll s es = .ok s2 ∧ Pinv s2 ∧ s2.len = s.len + es.length ∧
      s2.elems = s.elems ++ es := by
  intro es
  induction es with
  | nil =>
    intro s hp
    exact ⟨s, rfl, hp, by simp, by simp⟩
  | cons x xs ih =>
    intro s hp
    obtain ⟨s1, h1, hp1, hl1, he1⟩ := push_step_Pinv x hp
    obtain ⟨s2, h2, hp2, hl2, he2⟩ := ih hp1
    refine ⟨s2, ?_, hp2, ?_, ?_⟩
    · simp only [pushAll]
      rw [h1]
      simpa using h2
    · rw [hl2, hl1]
      simp only [List.length_cons]
      omega
    · rw [he2, he1]
      simp

/-- Reduction of `pop` when `tail` is a live in-range pointer and `len` is a
successor. -/
theorem pop_pos_reduce {s : ULL α} {j n : Nat} (heqt : s.tail = .pos j)
    (hjlt : j < s.nodes.length) (heql : s.len = n + 1) :
    s.pop = .ok ((s.nodes.getD j []).getLast?,
      { (if ((s.nodes.getD j []).dropLast).isEmpty then
           ULL.unlinkLast
             { s with nodes := s.nodes.set j (s.nodes.getD j []).dropLast }
         else
           { s with nodes := s.nodes.set j (s.nodes.getD j []).dropLast }) with
        len := n }) := by
  rcases heqn : s.nodes with _ | ⟨f, rest⟩
  · rw [heqn] at hjlt
    simp at hjlt
  · rw [heqn] at hjlt
    simp only [ULL.pop, heqn, heqt, heql]
    rw [if_pos hjlt]

/-- One `pop` step from a `Qinv` state: either the logical sequence is empty
and nothing happens, or the *last* element is removed and `Qinv` is kept. -/
theorem pop_snoc {s : ULL α} (hq : Qinv s) :
    (s.elems = [] ∧ s.pop = .ok (Option.none, s)) ∨
    (∃ a s2, s.elems.getLast? = some a ∧ s.pop = .ok (some a, s2) ∧
      Qinv s2 ∧ s2.len = s.len - 1 ∧ 1 ≤ s.len ∧
      s2.elems = s.elems.dropLast) := by
  obtain ⟨hlen, hnh, ht1, ht2⟩ := hq
  rcases heqt : s.tail with _ | j | _
  · have hlen1 : s.nodes.length ≤ 1 := by
      by_contra hgt
      have h2 := ht2 (by omega)
      rw [heqt] at h2
      exact TailPtr.noConfusion h2
    rcases heqn : s.nodes with _ | ⟨f, rest⟩
    · left
      refine ⟨by simp [ULL.elems, heqn], ?_⟩
      simp only [ULL.pop, heqn, heqt]
    · have hrest : rest = [] := by
        rw [heqn] at hlen1
        simp only [List.length_cons] at hlen1
        exact List.eq_nil_of_length_eq_zero (by omega)
      subst hrest
      by_cases hf : f.isEmpty = true
      · left
        have hfnil : f = [] := by
          cases f with
          | nil => rfl
          | cons b t => simp at hf
        refine ⟨by simp [ULL.elems, heqn, hfnil], ?_⟩
        simp only [ULL.pop, heqn, heqt]
        rw [if_pos hf]
      · have hfne : f ≠ [] := by
          intro hc
          rw [hc] at hf
          simp at hf
        have hflen : s.len = f.length := by
          rw [hlen, sumChunks, heqn, sumL_cons, sumL_nil, Nat.add_zero]
        have hfpos := List.length_pos.mpr hfne
        obtain ⟨n, heql⟩ : ∃ n, s.len = n + 1 := ⟨s.len - 1, by omega⟩
        right
        refine ⟨f.getLast hfne,
          { s with nodes := s.nodes.set 0 f.dropLast, len := n }, ?_, ?_,
          ⟨?_, ?_, ?_, ?_⟩, ?_, by omega, ?_⟩
        · simp only [ULL.elems, heqn, List.flatten_cons, List.flatten_nil,
            List.append_nil]
          exact List.getLast?_eq_getLast f hfne
        · simp only [ULL.pop, heqn, heqt, heql]
          rw [if_neg hf, List.getLast?_eq_getLast f hfne]
        · show n = sumChunks _
          rw [sumChunks]
          simp only [heqn, List.set_cons_zero]
          rw [sumL_cons, sumL_nil, List.length_dropLast]
          omega
        · intro c hc
          simp only [heqn, List.set_cons_zero] at hc
          simp at hc
        · intro _
          exact heqt
        · intro hc
          simp only [heqn, List.set_cons_zero] at hc
          simp at hc
        · show n = s.len - 1
          omega
        · show (s.nodes.set 0 f.dropLast).flatten = s.elems.dropLast
          simp [ULL.elems, heqn]
  · have hL2 : 2 ≤ s.nodes.length := by
      by_contra hc
      have h1 := ht1 (by omega)
      rw [heqt] at h1
      exact TailPtr.noConfusion h1
    have hj : j = s.nodes.length - 1 := by
      have h2 := ht2 hL2
      rw [heqt] at h2
      exact TailPtr.pos.inj h2
    have hjlt : j < s.nodes.length := by omega
    have hj1 : 1 ≤ j := by omega
    have hdropn : s.nodes.drop (j + 1) = [] := List.drop_eq_nil_of_le (by omega)
    have hgne : s.nodes.getD j [] ≠ [] := hnh _ (getD_mem_tail hj1 hjlt [])
    have hsumd := sumL_decomp hjlt
    have hsc : sumChunks s = sumL s.nodes := rfl
    have hdsum : sumL (s.nodes.drop (j + 1)) = 0 := by rw [hdropn]; rfl
    have hglen : 1 ≤ (s.nodes.getD j []).length := List.length_pos.mpr hgne
    have hlpos : 1 ≤ s.len := by omega
    obtain ⟨n, heql⟩ : ∃ n, s.len = n + 1 := ⟨s.len - 1, by omega⟩
    have helems : s.elems =
        (s.nodes.take j).flatten ++ s.nodes.getD j [] := by
      rw [ULL.elems]
      conv_lhs => rw [decomp hjlt ([] : List α), hdropn]
      simp
    have hpop := pop_pos_reduce heqt hjlt heql
    have hgl : s.elems.getLast? = some ((s.nodes.getD j []).getLast hgne) := by
      rw [helems, getLast?_append_ne hgne]
      exact List.getLast?_eq_getLast _ hgne
    have hdrl : s.elems.dropLast =
        (s.nodes.take j).flatten ++ (s.nodes.getD j []).dropLast := by
      rw [helems, dropLast_append_ne hgne]
    right
    by_cases hdl : ((s.nodes.getD j []).dropLast).isEmpty = true
    · -- the popped node becomes empty and is unlinked
      have hdlnil : (s.nodes.getD j []).dropLast = [] := by
        rcases hx : (s.nodes.getD j []).dropLast with _ | ⟨b, t⟩
        · rfl
        · rw [hx] at hdl
          simp at hdl
      have hglen1 : (s.nodes.getD j []).length = 1 := by
        have := List.length_dropLast (s.nodes.getD j [])
        rw [hdlnil] at this
        simp only [List.length_nil] at this
        omega
      rw [if_pos hdl] at hpop
      have heqt2 : ({ s with
          nodes := s.nodes.set j (s.nodes.getD j []).dropLast } : ULL α).tail =
          .pos j := heqt
      have hjlt2 : j < ({ s with
          nodes := s.nodes.set j (s.nodes.getD j []).dropLast } : ULL α).nodes.length := by
        simpa using hjlt
      rcases unlinkLast_spec heqt2 hjlt2 with ⟨hj0, hu⟩ | ⟨hjis1, hu⟩ | ⟨hj2, hu⟩
      · omega
      · -- the tail node was head's direct successor; tail cleared
        rw [hu] at hpop
        have hrm : removeChunkAt ({ s with
            nodes := s.nodes.set j (s.nodes.getD j []).dropLast } :
              ULL α).nodes 1 = s.nodes.take 1 := by
          show removeChunkAt
            (s.nodes.set j (s.nodes.getD j []).dropLast) 1 = s.nodes.take 1
          rw [removeChunkAt, take_set_le hj1,
            drop_set_lt (by omega)]
          rw [show (1 : Nat) + 1 = j + 1 from by omega, hdropn]
          simp
        rw [hrm] at hpop
        refine ⟨(s.nodes.getD j []).getLast hgne,
          { s with nodes := s.nodes.take 1, tail := .none, len := n },
          hgl, ?_, ⟨?_, ?_, ?_, ?_⟩, ?_, by omega, ?_⟩
        · rw [hpop, List.getLast?_eq_getLast _ hgne]
        · show n = sumL (s.nodes.take 1)
          rw [show (1 : Nat) = j from by omega]
          omega
        · intro c hc
          exact hnh c (mem_tail_take hc)
        · intro _
          rfl
        · intro hc
          have hc2 : 2 ≤ (s.nodes.take 1).length := hc
          have := List.length_take_le 1 s.nodes
          omega
        · show n = s.len - 1
          omega
        · show (s.nodes.take 1).flatten = s.elems.dropLast
          rw [hdrl, hdlnil, List.append_nil, hjis1]
      · -- a deeper tail node; its predecessor becomes the new tail
        rw [hu] at hpop
        have hrm : removeChunkAt ({ s with
            nodes := s.nodes.set j (s.nodes.getD j []).dropLast } :
              ULL α).nodes j = s.nodes.take j := by
          show removeChunkAt
            (s.nodes.set j (s.nodes.getD j []).dropLast) j = s.nodes.take j
          rw [removeChunkAt, take_set_le (le_refl j),
            drop_set_lt (by omega), hdropn]
          simp
        rw [hrm] at hpop
        have htkl : (s.nodes.take j).length = j := length_take_of_le (by omega)
        refine ⟨(s.nodes.getD j []).getLast hgne,
          { s with nodes := s.nodes.take j, tail := .pos (j - 1), len := n },
          hgl, ?_, ⟨?_, ?_, ?_, ?_⟩, ?_, by omega, ?_⟩
        · rw [hpop, List.getLast?_eq_getLast _ hgne]
        · show n = sumL (s.nodes.take j)
          omega
        · intro c hc
          exact hnh c (mem_tail_take hc)
        · intro hc
          exfalso
          have hc2 : (s.nodes.take j).length ≤ 1 := hc
          rw [htkl] at hc2
          omega
        · intro _
          show TailPtr.pos (j - 1) = TailPtr.pos ((s.nodes.take j).length - 1)
          rw [htkl]
        · show n = s.len - 1
          omega
        · show (s.nodes.take j).flatten = s.elems.dropLast
          rw [hdrl, hdlnil, List.append_nil]
    · -- the popped node stays nonempty
      have hdlne : (s.nodes.getD j []).dropLast ≠ [] := by
        intro hc
        rw [hc] at hdl
        simp at hdl
      rw [if_neg hdl] at hpop
      have hshape := set_decomp hjlt ((s.nodes.getD j []).dropLast)
      refine ⟨(s.nodes.getD j []).getLast hgne,
        { s with
          nodes := s.nodes.set j (s.nodes.getD j []).dropLast,
          len := n }, hgl, ?_, ⟨?_, ?_, ?_, ?_⟩, ?_, by omega, ?_⟩
      · rw [hpop, List.getLast?_eq_getLast _ hgne]
      · show n = sumL (s.nodes.set j (s.nodes.getD j []).dropLast)
        rw [hshape]
        have hsh := sumL_shape_one hjlt ((s.nodes.getD j []).dropLast)
        rw [List.length_dropLast] at hsh
        omega
      · intro c hc
        have hc2 : c ∈ (s.nodes.set j (s.nodes.getD j []).dropLast).tail := hc
        rw [hshape] at hc2
        exact nonHeadNE_shape_one hnh (by omega) (fun _ => hdlne) c hc2
      · intro hc
        have hc2 : (s.nodes.set j (s.nodes.getD j []).dropLast).length ≤ 1 := hc
        rw [List.length_set] at hc2
        omega
      · intro hc
        show s.tail = TailPtr.pos
          ((s.nodes.set j (s.nodes.getD j []).dropLast).length - 1)
        rw [heqt, List.length_set, hj]
      · show n = s.len - 1
        omega
      · show (s.nodes.set j (s.nodes.getD j []).dropLast).flatten =
          s.elems.dropLast
        rw [hshape, hdropn, hdrl]
        simp
  · exfalso
    rcases Nat.lt_or_ge s.nodes.length 2 with h | h
    · have h1 := ht1 (by omega)
      rw [heqt] at h1
      exact TailPtr.noConfusion h1
    · have h2 := ht2 h
      rw [heqt] at h2
      exact TailPtr.noConfusion h2

/-- Draining a `Qinv` state by as many pops as it has elements returns the
elements reversed and empties the list. -/
theorem popTimes_drain : ∀ (n : Nat) {s : ULL α} {es : List α}, Qinv s →
    s.elems = es → es.length = n →
    ∃ sf, popTimes s n = .ok (es.reverse.map some, sf) ∧
      sf.len = 0 ∧ sf.elems = [] := by
  intro n
  induction n with
  | zero =>
    intro s es hq he hn
    have hes : es = [] := List.eq_nil_of_length_eq_zero hn
    subst hes
    refine ⟨s, rfl, ?_, he⟩
    rw [hq.1, sumChunks, sumL_eq_length_flatten,
      show s.nodes.flatten = s.elems from rfl, he]
    rfl
  | succ n ih =>
    intro s es hq he hn
    rcases pop_snoc hq with ⟨hnil, hpop⟩ | ⟨a, s2, hgl, hpop, hq2, hl2, hpos, he2⟩
    · rw [he] at hnil
      subst hnil
      simp at hn
    · have hesne : es ≠ [] := by
        intro hc
        subst hc
        simp at hn
      rw [he] at hgl he2
      have ha : es.getLast hesne = a := by
        rw [List.getLast?_eq_getLast es hesne] at hgl
        injection hgl
      have hsplit : es.dropLast ++ [a] = es := by
        rw [← ha]
        exact List.dropLast_append_getLast hesne
      obtain ⟨sf, hrec, hfl, hfe⟩ := ih hq2 he2
        (by rw [List.length_dropLast]; omega)
      refine ⟨sf, ?_, hfl, hfe⟩
      have hrev : es.reverse = a :: es.dropLast.reverse := by
        conv_lhs => rw [← hsplit]
        rw [List.reverse_append]
        simp
      rw [hrev]
      simp only [popTimes, hpop, Except.bind, hrec, Except.map, List.map_cons]

/-- C8: the claim holds.  Pushing `e1 .. en` into a fresh list of any
capacity (including 0 and 1) and then popping `n` times returns
`Some en, .., Some e1` — the elements in reverse order — and leaves the
list with `length = 0` and an empty logical sequence. -/
theorem C8_push_then_pop_round_trip (cap : Nat) (es : List α) :
    ∃ sp sf, pushAll (ULL.withCapacity cap) es = .ok sp ∧
      popTimes sp es.length = .ok (es.reverse.map some, sf) ∧
      sf.len = 0 ∧ sf.elems = [] := by
  have hpinit : Pinv (ULL.withCapacity cap : ULL α) := by
    refine ⟨⟨rfl, ?_, fun _ => rfl, ?_⟩, ?_, ?_⟩
    · intro c hc
      simp [ULL.withCapacity] at hc
    · intro hc
      simp [ULL.withCapacity] at hc
    · intro hc
      simp [ULL.withCapacity] at hc
    · intro hc
      simp [ULL.withCapacity] at hc
  obtain ⟨sp, hpush, hp, hlen, helems⟩ := pushAll_Pinv es hpinit
  have hspe : sp.elems = es := by
    rw [helems]
    simp [ULL.elems, ULL.withCapacity]
  obtain ⟨sf, hpop, hf0, hfe⟩ := popTimes_drain es.length hp.1 hspe rfl
  exact ⟨sp, sf, hpush, hpop, hf0, hfe⟩

end ULLModel
